import Mathlib

/-!
Verification of the bfcc Brainfuck compiler core against its specification.

The Go sources are shallowly embedded: Go slices become `List`, Go `int`
(64-bit) becomes `Int` (with an explicit two-complement wrap where the code
can overflow), Go `byte` becomes `Nat` taken modulo 256, Go maps become
association lists, and operations that can panic at runtime (out-of-range
indexing) return `Option`/`Except`.
-/

namespace BF

/-- Position in the source file: byte offset, 1-based line and column
(`internal/core/core.go`, type `Position`). -/
structure Position where
  offset : Int
  line : Int
  col : Int
deriving DecidableEq, Repr

/-- Token kinds (`part_003`, type `TokenKind`), in the declaration order of the
Go `iota` block. -/
inductive TokenKind where
  | TokInvalid
  | TokShiftRight
  | TokShiftLeft
  | TokAdd
  | TokSub
  | TokOut
  | TokIn
  | TokLBracket
  | TokRBracket
  | TokEOF
deriving DecidableEq, Repr

/-- A lexical token (`part_003`, type `Token`). -/
structure Token where
  kind : TokenKind
  pos : Position
deriving DecidableEq, Repr

/-- The Go array `charToToken` (`part_003`): a keyed array literal whose highest
key is `']' = 93`, hence length 94.  Indexing it with a byte `b ≥ 94` is a
runtime bounds panic in Go, modelled here by `none`; for `b < 94` the array
holds the token kind for the eight command bytes and the zero value
`TokInvalid` everywhere else. -/
def charToToken (b : Nat) : Option TokenKind :=
  if b < 94 then
    some (if b = 62 then .TokShiftRight
      else if b = 60 then .TokShiftLeft
      else if b = 43 then .TokAdd
      else if b = 45 then .TokSub
      else if b = 46 then .TokOut
      else if b = 44 then .TokIn
      else if b = 91 then .TokLBracket
      else if b = 93 then .TokRBracket
      else .TokInvalid)
  else none

/-- Loop body of `Tokenize` (`part_003`): walks the source bytes carrying the
byte offset, the 1-based line and the 1-based column.  In Go a newline sets
`col = 0` and the shared `col++` at the end of the iteration brings it to 1;
here the two steps are fused.  A `none` result models the bounds panic of
`charToToken[b]` for `b ≥ 94`. -/
def tokenizeAux : List Nat → Nat → Nat → Nat → Option (List Token)
  | [], off, line, col => some [⟨.TokEOF, ⟨off, line, col⟩⟩]
  | b :: rest, off, line, col =>
    match charToToken b with
    | none => none
    | some kind =>
      if kind ≠ TokenKind.TokInvalid then
        (tokenizeAux rest (off + 1) line (col + 1)).map (⟨kind, ⟨off, line, col⟩⟩ :: ·)
      else if b = 10 then
        tokenizeAux rest (off + 1) (line + 1) 1
      else
        tokenizeAux rest (off + 1) line (col + 1)

/-- `Tokenize` (`part_003`): convert source bytes into tokens ending in
`TokEOF`; `none` models the Go runtime panic on bytes ≥ 94. -/
def Tokenize (src : List Nat) : Option (List Token) :=
  tokenizeAux src 0 1 1

/-- Counting loop of `FoldToken` (`part_003`): the loop advances the index
once per iteration and stops at the end of the tokens, so the fuel
`toks.length` supplied by `FoldToken` is never exhausted; the fuel only
makes the recursion structural so that it computes by kernel reduction. -/
def foldTokenF : Nat → List Token → Nat → TokenKind → Nat
  | 0, _, _, _ => 0
  | fuel + 1, toks, i, kind =>
    match toks[i]? with
    | some t => if t.kind = kind then foldTokenF fuel toks (i + 1) kind + 1 else 0
    | none => 0

/-- `FoldToken` (`part_003`): count consecutive tokens of kind `kind`
starting at index `i`. -/
def FoldToken (toks : List Token) (i : Nat) (kind : TokenKind) : Nat :=
  foldTokenF toks.length toks i kind

/-- IR op kinds (`part_002`, type `OpKind`), in Go declaration order. -/
inductive OpKind where
  | OpShift
  | OpAdd
  | OpZero
  | OpIn
  | OpOut
  | OpJz
  | OpJnz
deriving DecidableEq, Repr

/-- One IR operation (`part_002`, type `Op`): kind, signed argument, optional
source position. -/
structure Op where
  kind : OpKind
  arg : Int := 0
  pos : Option Position := none
deriving DecidableEq, Repr

/-- Two-complement wrap-around of 64-bit signed integer addition, used where
the Go code adds two `int` values that may overflow. -/
def wrap64 (x : Int) : Int :=
  (x + 2 ^ 63) % 2 ^ 64 - 2 ^ 63

/-- The kinds of lowering diagnostics (`internal/core/lower.go`, the `Error`
messages "unmatched '['", "unmatched ']'" and "unexpected token"). -/
inductive LowerErrKind where
  | unmatchedOpen
  | unmatchedClose
  | unexpectedToken
deriving DecidableEq, Repr

/-- A lowering diagnostic (`internal/core/lower.go`, type `Error`): message
kind plus the position it reports. -/
structure LowerErr where
  kind : LowerErrKind
  pos : Position
deriving DecidableEq, Repr

/-- Decidable equality for `Except` results, used to evaluate `Lower` on
concrete inputs. -/
instance {ε α : Type} [DecidableEq ε] [DecidableEq α] : DecidableEq (Except ε α)
  | .ok a, .ok b =>
    if h : a = b then .isTrue (h ▸ rfl) else .isFalse fun hh => h (Except.ok.inj hh)
  | .ok _, .error _ => .isFalse fun hh => Except.noConfusion hh
  | .error _, .ok _ => .isFalse fun hh => Except.noConfusion hh
  | .error e, .error f =>
    if h : e = f then .isTrue (h ▸ rfl) else .isFalse fun hh => h (Except.error.inj hh)

/-- A lowering rule (`internal/core/lower.go`, type `lowerRule`). -/
structure lowerRule where
  op : OpKind
  sign : Int
  fold : Bool

/-- The Go array `tokToRule` (`internal/core/lower.go`); kinds it does not
list get the zero value, which `Lower` never consults. -/
def tokToRule : TokenKind → lowerRule
  | .TokShiftRight => ⟨.OpShift, 1, true⟩
  | .TokShiftLeft => ⟨.OpShift, -1, true⟩
  | .TokAdd => ⟨.OpAdd, 1, true⟩
  | .TokSub => ⟨.OpAdd, -1, true⟩
  | .TokOut => ⟨.OpOut, 0, false⟩
  | .TokIn => ⟨.OpIn, 0, false⟩
  | _ => ⟨.OpShift, 0, false⟩

/-- Write `v` into the `arg` field of `ops[i]`, leaving kind and position
alone; out-of-range indices leave the list unchanged (the Go originals only
ever write in range). -/
def setArg (ops : List Op) (i : Nat) (v : Int) : List Op :=
  match ops[i]? with
  | some o => ops.set i { o with arg := v }
  | none => ops

/-- Loop body of `Lower` (`internal/core/lower.go`).  `i` is the token index,
`ops` the IR built so far and `loopStack` the stack of IR indices of open
`Jz` ops, kept in Go slice order (oldest first, push/pop at the back).  Each
iteration advances `i` by at least one, so the fuel `toks.length + 1` given by
`Lower` is never exhausted.  Note the unmatched-'[' branch faithfully
reproduces the source: it indexes `toks` with `loopStack[0]`, which is an IR
index, not a token index. -/
def lowerAux : Nat → List Token → Nat → List Op → List Nat → Except LowerErr (List Op)
  | 0, _, _, ops, _ => .ok ops
  | fuel + 1, toks, i, ops, loopStack =>
    if h : i < toks.length then
      let tok := toks[i]
      match tok.kind with
      | .TokEOF =>
        match loopStack.head? with
        | some s => .error ⟨.unmatchedOpen, ((toks[s]?).map Token.pos).getD ⟨0, 0, 0⟩⟩
        | none => .ok ops
      | .TokLBracket =>
        lowerAux fuel toks (i + 1) (ops ++ [⟨.OpJz, 0, some tok.pos⟩]) (loopStack ++ [ops.length])
      | .TokRBracket =>
        match loopStack.getLast? with
        | none => .error ⟨.unmatchedClose, tok.pos⟩
        | some start =>
          let ops1 := ops ++ [⟨.OpJnz, (start : Int), some tok.pos⟩]
          lowerAux fuel toks (i + 1) (setArg ops1 start (ops1.length : Int)) loopStack.dropLast
      | .TokShiftRight | .TokShiftLeft | .TokAdd | .TokSub | .TokIn | .TokOut =>
        let rule := tokToRule tok.kind
        if rule.fold then
          let count := FoldToken toks i tok.kind
          lowerAux fuel toks (i + count)
            (ops ++ [⟨rule.op, rule.sign * (count : Int), some tok.pos⟩]) loopStack
        else
          lowerAux fuel toks (i + 1) (ops ++ [⟨rule.op, 0, some tok.pos⟩]) loopStack
      | .TokInvalid => .error ⟨.unexpectedToken, tok.pos⟩
    else .ok ops

/-- `Lower` (`internal/core/lower.go`): convert a token stream into IR. -/
def Lower (toks : List Token) : Except LowerErr (List Op) :=
  lowerAux (toks.length + 1) toks 0 [] []

/-- Walk of `fixJumpTargets` (`internal/core/optimise.go`).  The Go loop
ranges over the ops reading only their kinds (which it never writes), pushing
`Jz` indices and, on a `Jnz`, writing the two paired arguments; the kind
sequence is passed explicitly so the recursion is structural. -/
def fixAux : Nat → List OpKind → List Nat → List Op → List Op
  | _, [], _, ops => ops
  | i, .OpJz :: ks, stack, ops => fixAux (i + 1) ks (i :: stack) ops
  | i, .OpJnz :: ks, stack, ops =>
    match stack with
    | start :: rest =>
      fixAux (i + 1) ks rest (setArg (setArg ops start ((i : Int) + 1)) i (start : Int))
    | [] => fixAux (i + 1) ks [] ops
  | i, _ :: ks, stack, ops => fixAux (i + 1) ks stack ops

/-- `fixJumpTargets` (`internal/core/optimise.go`): recompute all `Jz`/`Jnz`
arguments by a single-stack bracket walk. -/
def fixJumpTargets (ops : List Op) : List Op :=
  fixAux 0 (ops.map Op.kind) [] ops

/-- The guard of the clear-loop window in `clearLoops`
(`internal/core/optimise.go`): `Jz` at `i`, `Add ±1` at `i+1`, `Jnz` at `i+2`,
with `ops[i].Arg = i+3` and `ops[i+2].Arg = i`; the `i+2 < len` bound of the
Go condition is the requirement that all three lookups succeed. -/
def clearCond (ops : List Op) (i : Nat) : Bool :=
  match ops[i]?, ops[i + 1]?, ops[i + 2]? with
  | some a, some b, some c =>
    a.kind == .OpJz && b.kind == .OpAdd && (b.arg == 1 || b.arg == -1) &&
      c.kind == .OpJnz && a.arg == (i : Int) + 3 && c.arg == (i : Int)
  | _, _, _ => false

/-- Scan loop of `clearLoops`: the Go loop appends to a fresh result slice;
here the appends become conses of the produced suffix.  The index advances
by at least one per iteration, so the fuel `ops.length` supplied by
`clearLoops` is never exhausted; it only makes the recursion structural. -/
def clearScanF : Nat → List Op → Nat → List Op
  | 0, _, _ => []
  | fuel + 1, ops, i =>
    match ops[i]? with
    | none => []
    | some op =>
      if clearCond ops i then ⟨.OpZero, 0, op.pos⟩ :: clearScanF fuel ops (i + 3)
      else op :: clearScanF fuel ops (i + 1)

/-- `clearLoops` (`internal/core/optimise.go`): replace matched
`Jz, Add ±1, Jnz` windows by `Zero`, then repair jump targets. -/
def clearLoops (ops : List Op) : List Op :=
  if ops.length < 3 then ops else fixJumpTargets (clearScanF ops.length ops 0)

/-- The guard of the empty-loop window in `removeEmptyLoops`
(`internal/core/optimise.go`): `Jz` at `i` directly followed by `Jnz`, with
`ops[i].Arg = i+2` and `ops[i+1].Arg = i`. -/
def emptyCond (ops : List Op) (i : Nat) : Bool :=
  match ops[i]?, ops[i + 1]? with
  | some a, some b =>
    a.kind == .OpJz && b.kind == .OpJnz && a.arg == (i : Int) + 2 && b.arg == (i : Int)
  | _, _ => false

/-- Scan loop of `removeEmptyLoops`, fuelled like `clearScanF`. -/
def emptyScanF : Nat → List Op → Nat → List Op
  | 0, _, _ => []
  | fuel + 1, ops, i =>
    match ops[i]? with
    | none => []
    | some op =>
      if emptyCond ops i then emptyScanF fuel ops (i + 2)
      else op :: emptyScanF fuel ops (i + 1)

/-- `removeEmptyLoops` (`internal/core/optimise.go`): drop matched adjacent
`Jz`/`Jnz` pairs, then repair jump targets. -/
def removeEmptyLoops (ops : List Op) : List Op :=
  if ops.length < 2 then ops else fixJumpTargets (emptyScanF ops.length ops 0)

/-- Fold of `mergeAdjacent` (`internal/core/optimise.go`): the accumulator is
the result slice reversed, so its head is the Go `last` element whose
argument the merge mutates in place; the argument addition wraps as Go `int`
addition does. -/
def mergeAux : List Op → List Op → List Op
  | acc, [] => acc.reverse
  | [], op :: rest => mergeAux [op] rest
  | last :: accR, op :: rest =>
    if op.kind == .OpAdd && last.kind == .OpAdd then
      mergeAux ({ last with arg := wrap64 (last.arg + op.arg) } :: accR) rest
    else if op.kind == .OpShift && last.kind == .OpShift then
      mergeAux ({ last with arg := wrap64 (last.arg + op.arg) } :: accR) rest
    else mergeAux (op :: last :: accR) rest

/-- `mergeAdjacent` (`internal/core/optimise.go`): fold consecutive `Add`s and
consecutive `Shift`s, then repair jump targets. -/
def mergeAdjacent (ops : List Op) : List Op :=
  if ops.length < 2 then ops else fixJumpTargets (mergeAux [] ops)

/-- The `Add`-argument normalisation of `removeNoOps` as a per-op map. -/
def normAdd (o : Op) : Op :=
  if o.kind == .OpAdd then { o with arg := o.arg.tmod 256 } else o

/-- Scan loop of `removeNoOps` (`internal/core/optimise.go`): normalise every
`Add` argument with Go's truncated `% 256` (the per-op map `normAdd`), then
drop `Add 0` and `Shift 0`. -/
def noOpScan : List Op → List Op
  | [] => []
  | op :: rest =>
    let op1 := normAdd op
    if (op1.kind == .OpAdd || op1.kind == .OpShift) && op1.arg == 0 then noOpScan rest
    else op1 :: noOpScan rest

/-- `removeNoOps` (`internal/core/optimise.go`): normalisation and no-op
elimination, then jump-target repair.  This pass has no short length guard. -/
def removeNoOps (ops : List Op) : List Op :=
  fixJumpTargets (noOpScan ops)

/-- One round of the `Optimise` fixed-point loop, in source pass order. -/
def optPasses (ops : List Op) : List Op :=
  removeNoOps (mergeAdjacent (removeEmptyLoops (clearLoops ops)))

/-- The `Optimise` fixed-point loop: repeat the four passes until a round
leaves the length unchanged.  Every round that does not exit strictly
decreases the length, so the fuel `ops.length + 1` supplied by `Optimise` is
never exhausted and the fuelled recursion computes exactly the Go loop. -/
def optimiseLoop : Nat → List Op → List Op
  | 0, r => r
  | fuel + 1, r =>
    let r' := optPasses r
    if r'.length = r.length then r' else optimiseLoop fuel r'

/-- `Optimise` (`internal/core/optimise.go`): the peephole/structural
optimiser. -/
def Optimise (ops : List Op) : List Op :=
  if ops.length = 0 then ops else optimiseLoop (ops.length + 1) ops

/-- Modelled from the spec: `OptimiseWithLevel` is called throughout
`cmd/bfcc` but its definition (with the `OptLevel` constants `O0`, `O1`,
`O2`) is not among the provided sources.  Per spec §4.3, level 0 is the
identity and levels 1 and 2 both apply the same fixed-point pipeline, i.e.
`Optimise`. -/
def OptimiseWithLevel (ops : List Op) (level : Nat) : List Op :=
  if level = 0 then ops else Optimise ops

/-- The single-stack bracket walk of the spec's jump-pair invariant (§3):
walk the kind sequence from absolute index `i` with a stack of open `Jz`
indices; a `Jnz` pops and records the pair, and the walk fails if a `Jnz`
finds an empty stack or brackets remain open at the end. -/
def walkPairsAux : Nat → List OpKind → List Nat → Option (List (Nat × Nat))
  | _, [], [] => some []
  | _, [], _ :: _ => none
  | i, .OpJz :: ks, stack => walkPairsAux (i + 1) ks (i :: stack)
  | i, .OpJnz :: ks, start :: rest => (walkPairsAux (i + 1) ks rest).map ((start, i) :: ·)
  | _, .OpJnz :: _, [] => none
  | i, _ :: ks, stack => walkPairsAux (i + 1) ks stack

/-- The matched `(Jz index, Jnz index)` pairs of a stream, in the order the
closing `Jnz` ops appear; `none` when the brackets do not balance. -/
def walkPairs (ops : List Op) : Option (List (Nat × Nat)) :=
  walkPairsAux 0 (ops.map Op.kind) []

/-- Depth transformer of the bracket walk on a kind sequence: `none` when a
`Jnz` occurs at depth 0, otherwise the resulting nesting depth. -/
def balSt : List OpKind → Nat → Option Nat
  | [], d => some d
  | .OpJz :: ks, d => balSt ks (d + 1)
  | .OpJnz :: _, 0 => none
  | .OpJnz :: ks, d + 1 => balSt ks d
  | _ :: ks, d => balSt ks d

/-- A stream's `Jz`/`Jnz` kinds nest like balanced brackets. -/
def balanced (ops : List Op) : Bool :=
  balSt (ops.map Op.kind) 0 == some 0

/-- All indices occurring in a list of matched bracket pairs. -/
def pairIdxs (ps : List (Nat × Nat)) : List Nat :=
  ps.flatMap fun p => [p.1, p.2]

/-- The per-op normalisation invariants of spec §3: no `Add 0`, no `Shift 0`,
and every `Add` argument within `-255..255`. -/
def normOk (o : Op) : Prop :=
  (o.kind = .OpAdd → o.arg ≠ 0 ∧ -255 ≤ o.arg ∧ o.arg ≤ 255) ∧
    (o.kind = .OpShift → o.arg ≠ 0)

/-- The jump-pair invariant of spec §3: the bracket walk matches every `Jz`
with exactly one later `Jnz`, and for each matched pair `(i, j)` the stream
has `ops[i].Arg = j + 1` and `ops[j].Arg = i`. -/
def jumpPairInv (ops : List Op) : Bool :=
  match walkPairs ops with
  | some ps =>
    ps.all fun p =>
      ((ops[p.1]?).map Op.arg == some ((p.2 : Int) + 1)) &&
        ((ops[p.2]?).map Op.arg == some (p.1 : Int))
  | none => false

/-- Write the two paired arguments of each pair in order, the net effect of
the `fixJumpTargets` walk on a balanced stream. -/
def applyPairs (ps : List (Nat × Nat)) (ops : List Op) : List Op :=
  ps.foldl (fun acc p => setArg (setArg acc p.1 ((p.2 : Int) + 1)) p.2 (p.1 : Int)) ops

/-- Decidable form of the normalisation invariant "no `Jz` immediately
followed by its matching `Jnz`": no index of the stream satisfies the
empty-loop window condition. -/
def noMatchedEmptyLoop (ops : List Op) : Bool :=
  (List.range ops.length).all fun j => ! emptyCond ops j

/-- Some index of the stream carries a matched three-op `Jz, Add ±1, Jnz`
clear-loop window. -/
def hasMatchedClearLoop (ops : List Op) : Bool :=
  (List.range ops.length).any fun j => clearCond ops j

/-- EOF behaviours of the interpreter (`internal/vm/vm.go`, `EOFBehavior`). -/
inductive EOFBehavior where
  | EOFZero
  | EOFMinusOne
  | EOFNoChange
deriving DecidableEq, Repr

/-- Interpreter configuration (`internal/vm/vm.go`, the `VM` fields fixed by
`NewVM` options); input and output live in `VMState` since the Go reader and
writer are stateful. -/
structure VMConfig where
  memSize : Nat
  eofBehavior : EOFBehavior
deriving DecidableEq, Repr

/-- The configuration `NewVM` builds when no options are given. -/
def defaultConfig : VMConfig :=
  ⟨30000, .EOFZero⟩

/-- Mutable interpreter state (`internal/vm/vm.go`): tape, data pointer,
program counter, plus the remaining input bytes and the output written so
far, modelling the configured reader and writer. -/
structure VMState where
  memory : List Nat
  dp : Int
  pc : Int
  inp : List Nat
  outp : List Nat
deriving DecidableEq, Repr

/-- The runtime error messages `VM.Run` can format (`internal/vm/vm.go`),
as structured kinds; the out-of-bounds message interpolates the new data
pointer and `memSize - 1`. -/
inductive RErrMsg where
  | outOfBounds (dp : Int) (maxValid : Int)
  | inputError
  | outputError
deriving DecidableEq, Repr

/-- `RuntimeError` (`internal/vm/vm.go`): message, op position, pc. -/
structure RuntimeError where
  msg : RErrMsg
  pos : Option Position
  pc : Int
deriving DecidableEq, Repr

/-- Go conversion `byte(k)` of a signed integer: two-complement truncation
to eight bits. -/
def byteOfInt (a : Int) : Nat :=
  (a % 256).toNat

/-- Read `mem[dp]`; `none` models the Go panic on an out-of-range index. -/
def memRead (mem : List Nat) (dp : Int) : Option Nat :=
  if dp < 0 then none else mem[dp.toNat]?

/-- Write `mem[dp]`; `none` models the Go panic on an out-of-range index. -/
def memWrite (mem : List Nat) (dp : Int) (v : Nat) : Option (List Nat) :=
  if dp < 0 then none
  else if dp.toNat < mem.length then some (mem.set dp.toNat v) else none

/-- Outcome of one iteration of the `VM.Run` fetch-decode loop. -/
inductive StepResult where
  | next (st : VMState)
  | fail (e : RuntimeError) (st : VMState)
  | crash
  | halt (st : VMState)
deriving DecidableEq, Repr

/-- One iteration of the `VM.Run` loop (`internal/vm/vm.go`): check
`pc < len(ops)`, fetch, dispatch on the op kind.  `crash` models the Go
runtime panics (negative `pc` fetch or a tape access with `dp` out of
range); `fail` models returning a `*RuntimeError`; `halt` is the normal loop
exit.  The data-pointer addition wraps as Go `int` addition does. -/
def step (cfg : VMConfig) (ops : List Op) (st : VMState) : StepResult :=
  if st.pc < (ops.length : Int) then
    match ops[st.pc.toNat]?, decide (0 ≤ st.pc) with
    | some op, true =>
      match op.kind with
      | .OpShift =>
        let dp1 := wrap64 (st.dp + op.arg)
        if dp1 < 0 ∨ (cfg.memSize : Int) ≤ dp1 then
          .fail ⟨.outOfBounds dp1 ((cfg.memSize : Int) - 1), op.pos, st.pc⟩ { st with dp := dp1 }
        else .next { st with dp := dp1, pc := st.pc + 1 }
      | .OpAdd =>
        match memRead st.memory st.dp with
        | none => .crash
        | some c =>
          match memWrite st.memory st.dp ((c + byteOfInt op.arg) % 256) with
          | none => .crash
          | some m => .next { st with memory := m, pc := st.pc + 1 }
      | .OpZero =>
        match memWrite st.memory st.dp 0 with
        | none => .crash
        | some m => .next { st with memory := m, pc := st.pc + 1 }
      | .OpIn =>
        match st.inp with
        | [] =>
          match cfg.eofBehavior with
          | .EOFZero =>
            match memWrite st.memory st.dp 0 with
            | none => .crash
            | some m => .next { st with memory := m, pc := st.pc + 1 }
          | .EOFMinusOne =>
            match memWrite st.memory st.dp 255 with
            | none => .crash
            | some m => .next { st with memory := m, pc := st.pc + 1 }
          | .EOFNoChange => .next { st with pc := st.pc + 1 }
        | b :: rest =>
          match memWrite st.memory st.dp b with
          | none => .crash
          | some m => .next { st with memory := m, inp := rest, pc := st.pc + 1 }
      | .OpOut =>
        match memRead st.memory st.dp with
        | none => .crash
        | some c => .next { st with outp := st.outp ++ [c], pc := st.pc + 1 }
      | .OpJz =>
        match memRead st.memory st.dp with
        | none => .crash
        | some c =>
          if c = 0 then .next { st with pc := op.arg } else .next { st with pc := st.pc + 1 }
      | .OpJnz =>
        match memRead st.memory st.dp with
        | none => .crash
        | some c =>
          if c ≠ 0 then .next { st with pc := op.arg } else .next { st with pc := st.pc + 1 }
    | _, _ => .crash
  else .halt st

/-- Result of running the interpreter loop to completion (with fuel). -/
inductive RunResult where
  | finished (st : VMState)
  | failed (e : RuntimeError) (st : VMState)
  | crashed
  | fuelOut (st : VMState)
deriving DecidableEq, Repr

/-- The `VM.Run` fetch-decode loop (`internal/vm/vm.go`), iterating `step`.
The fuel only bounds the number of iterations observed; the Go loop has no
such bound and may diverge. -/
def Run (cfg : VMConfig) (ops : List Op) : Nat → VMState → RunResult
  | 0, st => .fuelOut st
  | fuel + 1, st =>
    match step cfg ops st with
    | .halt st1 => .finished st1
    | .next st1 => Run cfg ops fuel st1
    | .fail e st1 => .failed e st1
    | .crash => .crashed

/-- The state `VM.Run` starts from: a zeroed tape of `memSize` cells,
`dp = 0`, `pc = 0`, the configured input, no output yet. -/
def initState (cfg : VMConfig) (input : List Nat) : VMState :=
  ⟨List.replicate cfg.memSize 0, 0, 0, input, []⟩

/-- Little-endian byte encodings used by the ELF builder and the code
generator (`encoding/binary` little-endian puts). -/
def le16 (v : Nat) : List Nat :=
  [v % 256, v / 2 ^ 8 % 256]

/-- Little-endian 32-bit encoding of a natural number (modulo `2^32`). -/
def le32 (v : Nat) : List Nat :=
  [v % 256, v / 2 ^ 8 % 256, v / 2 ^ 16 % 256, v / 2 ^ 24 % 256]

/-- Little-endian 64-bit encoding of a natural number (modulo `2^64`). -/
def le64 (v : Nat) : List Nat :=
  [v % 256, v / 2 ^ 8 % 256, v / 2 ^ 16 % 256, v / 2 ^ 24 % 256,
    v / 2 ^ 32 % 256, v / 2 ^ 40 % 256, v / 2 ^ 48 % 256, v / 2 ^ 56 % 256]

/-- Little-endian 32-bit encoding of a signed value, i.e. of the Go chain
`uint32(int32(v))`. -/
def le32i (v : Int) : List Nat :=
  le32 ((v % 2 ^ 32).toNat)

/-- `pkg/amd64` instruction encoders, one per Go function, byte for byte. -/
def MovabsR13 (imm64 : Nat) : List Nat :=
  [0x49, 0xBD] ++ le64 imm64

/-- `xorq %r12, %r12`. -/
def XorR12R12 : List Nat :=
  [0x4D, 0x31, 0xE4]

/-- `addq $imm32, %r12`. -/
def AddqImm32R12 (imm32 : Int) : List Nat :=
  [0x49, 0x81, 0xC4] ++ le32i imm32

/-- `subq $imm32, %r12`. -/
def SubqImm32R12 (imm32 : Int) : List Nat :=
  [0x49, 0x81, 0xEC] ++ le32i imm32

/-- `addb $imm8, (%r13,%r12)`. -/
def AddbImm8Mem (imm8 : Nat) : List Nat :=
  [0x43, 0x80, 0x44, 0x25, 0x00, imm8]

/-- `subb $imm8, (%r13,%r12)`. -/
def SubbImm8Mem (imm8 : Nat) : List Nat :=
  [0x43, 0x80, 0x6C, 0x25, 0x00, imm8]

/-- `movb $0, (%r13,%r12)`. -/
def MovbZeroMem : List Nat :=
  [0x43, 0xC6, 0x44, 0x25, 0x00, 0x00]

/-- `testb $0xff, (%r13,%r12)`. -/
def TestbMem : List Nat :=
  [0x43, 0xF6, 0x44, 0x25, 0x00, 0xFF]

/-- `jz rel32`. -/
def JzRel32 (rel32 : Int) : List Nat :=
  [0x0F, 0x84] ++ le32i rel32

/-- `jnz rel32`. -/
def JnzRel32 (rel32 : Int) : List Nat :=
  [0x0F, 0x85] ++ le32i rel32

/-- `call rel32`. -/
def CallRel32 (rel32 : Int) : List Nat :=
  [0xE8] ++ le32i rel32

/-- `ret`. -/
def Ret : List Nat :=
  [0xC3]

/-- `syscall`. -/
def Syscall : List Nat :=
  [0x0F, 0x05]

/-- `leaq (%r13,%r12), %rsi`. -/
def LeaqR13R12ToRSI : List Nat :=
  [0x4B, 0x8D, 0x74, 0x25, 0x00]

/-- `xorq %rax, %rax`. -/
def XorRAXRAX : List Nat :=
  [0x48, 0x31, 0xC0]

/-- `xorq %rdi, %rdi`. -/
def XorRDIRDI : List Nat :=
  [0x48, 0x31, 0xFF]

/-- `movq $imm32, %rax`. -/
def MovqImm32RAX (imm32 : Int) : List Nat :=
  [0x48, 0xC7, 0xC0] ++ le32i imm32

/-- `movq $imm32, %rdi`. -/
def MovqImm32RDI (imm32 : Int) : List Nat :=
  [0x48, 0xC7, 0xC7] ++ le32i imm32

/-- `movq $imm32, %rdx`. -/
def MovqImm32RDX (imm32 : Int) : List Nat :=
  [0x48, 0xC7, 0xC2] ++ le32i imm32

/-- One fix-up entry (`part_005`, type `jumpFixup`): byte offset of the
rel32 placeholder inside the code buffer and the target identifier, an IR
index or `-1`/`-2` for the read/write helper. -/
structure Fixup where
  offset : Nat
  targetIdx : Int
deriving DecidableEq, Repr

/-- Mutable generator state during emission (`part_005`,
`X86_64Generator`): code buffer, fix-up list, and the `ir index → code
offset` label map (an association list standing in for the Go map, whose
keys are recorded at most once). -/
structure GenState where
  code : List Nat
  fixups : List Fixup
  labelAddr : List (Int × Nat)
deriving DecidableEq, Repr

/-- `collectTargets` (`part_005`): the set of IR indices that appear as the
argument of any `Jz` or `Jnz`, as a membership list. -/
def collectTargets (ops : List Op) : List Int :=
  (ops.filter fun o => o.kind == .OpJz || o.kind == .OpJnz).map Op.arg

/-- `emitOp` and the per-op emitters of `part_005`: append the machine-code
bytes of one op and record a fix-up for rel32 placeholders.  `Shift` and
`Add` of 0 emit nothing; `Shift` uses the `int32` cast of the argument,
`Add` the `uint8` cast.  Call fix-ups start one byte into the instruction,
jump fix-ups two bytes into the `jz`/`jnz` that follows the 6-byte `testb`. -/
def emitOp (st : GenState) (op : Op) : GenState :=
  match op.kind with
  | .OpShift =>
    if op.arg = 0 then st
    else if 0 < op.arg then { st with code := st.code ++ AddqImm32R12 op.arg }
    else { st with code := st.code ++ SubqImm32R12 (-op.arg) }
  | .OpAdd =>
    if op.arg = 0 then st
    else if 0 < op.arg then { st with code := st.code ++ AddbImm8Mem (byteOfInt op.arg) }
    else { st with code := st.code ++ SubbImm8Mem (byteOfInt (-op.arg)) }
  | .OpZero => { st with code := st.code ++ MovbZeroMem }
  | .OpIn =>
    { st with
      fixups := st.fixups ++ [⟨st.code.length + 1, -1⟩],
      code := st.code ++ CallRel32 0 }
  | .OpOut =>
    { st with
      fixups := st.fixups ++ [⟨st.code.length + 1, -2⟩],
      code := st.code ++ CallRel32 0 }
  | .OpJz =>
    let code1 := st.code ++ TestbMem
    { st with
      fixups := st.fixups ++ [⟨code1.length + 2, op.arg⟩],
      code := code1 ++ JzRel32 0 }
  | .OpJnz =>
    let code1 := st.code ++ TestbMem
    { st with
      fixups := st.fixups ++ [⟨code1.length + 2, op.arg⟩],
      code := code1 ++ JnzRel32 0 }

/-- The body-emission loop of `Generate` (`part_005`): before emitting op
`i`, record the current code offset as the label of `i` when `i` is a jump
target. -/
def emitBodyAux (targets : List Int) : List Op → Nat → GenState → GenState
  | [], _, st => st
  | op :: rest, i, st =>
    let st1 :=
      if (i : Int) ∈ targets then
        { st with labelAddr := st.labelAddr ++ [((i : Int), st.code.length)] }
      else st
    emitBodyAux targets rest (i + 1) (emitOp st1 op)

/-- Prologue bytes (`emitPrologue`): `movabs $0x600000, %r13; xorq %r12, %r12`. -/
def prologueCode : List Nat :=
  MovabsR13 0x600000 ++ XorR12R12

/-- Epilogue bytes (`emitEpilogue`): `exit(0)` syscall. -/
def epilogueCode : List Nat :=
  MovqImm32RAX 60 ++ XorRDIRDI ++ Syscall

/-- `_bf_read` helper bytes (`emitHelpers`). -/
def readHelperCode : List Nat :=
  LeaqR13R12ToRSI ++ XorRAXRAX ++ XorRDIRDI ++ MovqImm32RDX 1 ++ Syscall ++ Ret

/-- `_bf_write` helper bytes (`emitHelpers`). -/
def writeHelperCode : List Nat :=
  LeaqR13R12ToRSI ++ MovqImm32RAX 1 ++ MovqImm32RDI 1 ++ MovqImm32RDX 1 ++ Syscall ++ Ret

/-- Go map lookup in `labelAddr` with the zero-value default 0. -/
def lookupLabel (labelAddr : List (Int × Nat)) (t : Int) : Nat :=
  ((labelAddr.find? fun p => p.1 == t).map Prod.snd).getD 0

/-- Overwrite four bytes at `off` with the little-endian signed 32-bit
encoding of `v` (`binary.LittleEndian.PutUint32(code[off:], uint32(int32 v))`);
`none` models the Go panic when fewer than four bytes remain. -/
def patchLE32 (code : List Nat) (off : Nat) (v : Int) : Option (List Nat) :=
  if off + 4 ≤ code.length then some (code.take off ++ le32i v ++ code.drop (off + 4)) else none

/-- `resolveFixups` (`part_005`): for each fix-up, resolve the target offset
(helper start for the `-1`/`-2` markers, label-map lookup otherwise) and
patch `target - (offset + 4)` at the recorded position. -/
def resolveFixups : List Fixup → List (Int × Nat) → Nat → Nat → List Nat → Option (List Nat)
  | [], _, _, _, code => some code
  | f :: fs, la, readOff, writeOff, code =>
    let targetAddr : Nat :=
      if f.targetIdx = -1 then readOff
      else if f.targetIdx = -2 then writeOff
      else lookupLabel la f.targetIdx
    match patchLE32 code f.offset ((targetAddr : Int) - ((f.offset : Int) + 4)) with
    | some code1 => resolveFixups fs la readOff writeOff code1
    | none => none

/-- The emission phase of `Generate` (`part_005`), before fix-up
resolution: prologue, labelled body, trailing label, epilogue, helpers.
Returns the final state together with the two helper start offsets. -/
def emitAll (ops : List Op) : GenState × Nat × Nat :=
  let targets := collectTargets ops
  let st1 := emitBodyAux targets ops 0 ⟨prologueCode, [], []⟩
  let st2 :=
    if (ops.length : Int) ∈ targets then
      { st1 with labelAddr := st1.labelAddr ++ [((ops.length : Int), st1.code.length)] }
    else st1
  let code3 := st2.code ++ epilogueCode
  let readOff := code3.length
  let code4 := code3 ++ readHelperCode
  let writeOff := code4.length
  ({ st2 with code := code4 ++ writeHelperCode }, readOff, writeOff)

/-- `Generate` (`part_005`): emit all code and resolve the fix-ups. -/
def Generate (ops : List Op) : Option (List Nat) :=
  let (st, readOff, writeOff) := emitAll ops
  resolveFixups st.fixups st.labelAddr readOff writeOff st.code

/-- A loadable segment handed to the ELF builder (`pkg/elf/elf.go`,
type `Segment`). -/
structure Segment where
  vaddr : Nat
  data : List Nat
  memSz : Nat
  flags : Nat
  isBSS : Bool
deriving DecidableEq, Repr

/-- `alignUp` (`pkg/elf/elf.go`) for the power-of-two page size. -/
def alignUp (v align : Nat) : Nat :=
  (v + align - 1) / align * align

/-- The 64 header bytes `writeHeader` produces (`pkg/elf/elf.go`): magic,
`ELFCLASS64`, `ELFDATA2LSB`, version, `ET_EXEC`, `EM_X86_64`, entry point,
`PhOff = 64`, no section headers, `EhSize = 64`, `PhEntSize = 56`, `PhNum`. -/
def writeHeader (entry : Nat) (numPhdrs : Nat) : List Nat :=
  [0x7F, 0x45, 0x4C, 0x46, 2, 1, 1, 0, 0, 0, 0, 0, 0, 0, 0, 0] ++
    le16 2 ++ le16 62 ++ le32 1 ++ le64 entry ++ le64 64 ++ le64 0 ++
    le32 0 ++ le16 64 ++ le16 56 ++ le16 numPhdrs ++ le16 0 ++ le16 0 ++ le16 0

/-- The 56 bytes of one program header (`pkg/elf/elf.go`, `writePhdr`):
type, flags, offset, vaddr, paddr, filesz, memsz, align. -/
def writePhdr (ptype flags off vaddr filesz memsz : Nat) : List Nat :=
  le32 ptype ++ le32 flags ++ le64 off ++ le64 vaddr ++ le64 vaddr ++
    le64 filesz ++ le64 memsz ++ le64 0x1000

/-- The program-header loop of `Build` (`pkg/elf/elf.go`): BSS segments get
offset and file size 0, others take the running file offset and their data
length. -/
def buildPhdrs : List Segment → Nat → List Nat
  | [], _ => []
  | seg :: rest, fileOffset =>
    if seg.isBSS then
      writePhdr 1 seg.flags 0 seg.vaddr 0 seg.memSz ++ buildPhdrs rest fileOffset
    else
      writePhdr 1 seg.flags fileOffset seg.vaddr seg.data.length seg.memSz ++
        buildPhdrs rest (fileOffset + seg.data.length)

/-- `Build` (`pkg/elf/elf.go`): header, program headers, zero padding to the
page-aligned code offset, then the data of the non-BSS segments in order. -/
def Build (entry : Nat) (segments : List Segment) : List Nat :=
  let numPhdrs := segments.length
  let headerSize := 64 + numPhdrs * 56
  let codeOffset := alignUp headerSize 0x1000
  let out := writeHeader entry numPhdrs ++ buildPhdrs segments codeOffset
  let out1 := out ++ List.replicate (codeOffset - out.length) 0
  out1 ++ (segments.filter fun s => !s.isBSS).foldr (fun s acc => s.data ++ acc) []

/-- `GenerateELF` (`part_005`): generate the code and wrap it in an ELF with
the code segment at entry `0x400000 + 0x1000` (flags R|X) and a 30000-byte
BSS tape at `0x600000` (flags R|W). -/
def GenerateELF (ops : List Op) : Option (List Nat) :=
  (Generate ops).map fun code =>
    Build 0x401000
      [⟨0x401000, code, code.length, 5, false⟩, ⟨0x600000, [], 30000, 6, true⟩]

/-- Aliasing-aware model of the optimiser's slice usage, for the frame
property: the heap is a list of op arrays and a Go slice value is an index
into it.  Reading a dangling index yields `[]`; the embedded code never does. -/
def heapRead (h : List (List Op)) (r : Nat) : List Op :=
  h.getD r []

/-- In-place update of the array a slice points to. -/
def heapWrite (h : List (List Op)) (r : Nat) (v : List Op) : List (List Op) :=
  h.set r v

/-- `make`/`append`-built fresh array: allocate a new heap cell. -/
def heapAlloc (h : List (List Op)) (v : List Op) : Nat × List (List Op) :=
  (h.length, h ++ [v])

/-- Heap-level `clearLoops`: the short-input path returns the argument slice
itself; otherwise the scan builds a fresh array and `fixJumpTargets` mutates
that fresh array in place. -/
def clearLoopsH (h : List (List Op)) (r : Nat) : Nat × List (List Op) :=
  let ops := heapRead h r
  if ops.length < 3 then (r, h)
  else
    let (r1, h1) := heapAlloc h (clearScanF ops.length ops 0)
    (r1, heapWrite h1 r1 (fixJumpTargets (heapRead h1 r1)))

/-- Heap-level `removeEmptyLoops`. -/
def removeEmptyLoopsH (h : List (List Op)) (r : Nat) : Nat × List (List Op) :=
  let ops := heapRead h r
  if ops.length < 2 then (r, h)
  else
    let (r1, h1) := heapAlloc h (emptyScanF ops.length ops 0)
    (r1, heapWrite h1 r1 (fixJumpTargets (heapRead h1 r1)))

/-- Heap-level `mergeAdjacent`. -/
def mergeAdjacentH (h : List (List Op)) (r : Nat) : Nat × List (List Op) :=
  let ops := heapRead h r
  if ops.length < 2 then (r, h)
  else
    let (r1, h1) := heapAlloc h (mergeAux [] ops)
    (r1, heapWrite h1 r1 (fixJumpTargets (heapRead h1 r1)))

/-- Heap-level `removeNoOps` (no short-input path in the source). -/
def removeNoOpsH (h : List (List Op)) (r : Nat) : Nat × List (List Op) :=
  let ops := heapRead h r
  let (r1, h1) := heapAlloc h (noOpScan ops)
  (r1, heapWrite h1 r1 (fixJumpTargets (heapRead h1 r1)))

/-- Heap-level pass round in source order. -/
def optPassesH (h : List (List Op)) (r : Nat) : Nat × List (List Op) :=
  let (r1, h1) := clearLoopsH h r
  let (r2, h2) := removeEmptyLoopsH h1 r1
  let (r3, h3) := mergeAdjacentH h2 r2
  removeNoOpsH h3 r3

/-- Heap-level `Optimise` fixed-point loop, fuelled like `optimiseLoop`. -/
def optimiseLoopH : Nat → List (List Op) → Nat → Nat × List (List Op)
  | 0, h, r => (r, h)
  | fuel + 1, h, r =>
    let prev := (heapRead h r).length
    let (r1, h1) := optPassesH h r
    if (heapRead h1 r1).length = prev then (r1, h1) else optimiseLoopH fuel h1 r1

/-- Heap-level `Optimise`: the empty-input path returns the argument slice. -/
def OptimiseH (h : List (List Op)) (r : Nat) : Nat × List (List Op) :=
  if (heapRead h r).length = 0 then (r, h)
  else optimiseLoopH ((heapRead h r).length + 1) h r

/-- The run returned a `*RuntimeError`. -/
def isFailed : RunResult → Bool
  | .failed _ _ => true
  | _ => false

/-- The run reached `pc = len(ops)` and returned `nil`. -/
def isFinished : RunResult → Bool
  | .finished _ => true
  | _ => false

/-- The runtime error of a failed run, if any. -/
def errOf : RunResult → Option RuntimeError
  | .failed e _ => some e
  | _ => none

/-- The interpreter state invariant behind the pointer-safety argument:
the tape has the configured length, the data pointer is inside it, and the
program counter is non-negative. -/
def vmGood (cfg : VMConfig) (st : VMState) : Prop :=
  st.memory.length = cfg.memSize ∧ 0 ≤ st.dp ∧ st.dp < (cfg.memSize : Int) ∧ 0 ≤ st.pc

/-- Source text of spec scenario S1, `+[->++<]`, as bytes. -/
def c5Source : List Nat :=
  [43, 91, 45, 62, 43, 43, 60, 93]

/-- The op stream scenario S1 claims (`000: ADD +1, 001: JZ 005, 002: SHIFT
+1, 003: ADD +2, 004: SHIFT -1, 005: ADD -1, 006: JNZ 001`), as kind and
argument per index. -/
def c5Claimed : List (OpKind × Int) :=
  [(.OpAdd, 1), (.OpJz, 5), (.OpShift, 1), (.OpAdd, 2), (.OpShift, -1), (.OpAdd, -1), (.OpJnz, 1)]

/-- The front half of the pipeline on the S1 source: tokenize, then lower. -/
def c5Pipeline : Option (List Op) :=
  (Tokenize c5Source).bind fun t => (Lower t).toOption

/-- The stream whose optimisation erases a bounds failure: shift far out of
range and back. -/
def c2Ops : List Op :=
  [⟨.OpShift, 30000, none⟩, ⟨.OpShift, -30000, none⟩]

/-- The target code offset `resolveFixups` computes for one fix-up: the
helper start offsets for the `-1`/`-2` markers, the label map otherwise. -/
def fixTarget (la : List (Int × Nat)) (readOff writeOff : Nat) (f : Fixup) : Nat :=
  if f.targetIdx = -1 then readOff
  else if f.targetIdx = -2 then writeOff
  else lookupLabel la f.targetIdx

/-- The layout discipline of the emitted fix-up list: offsets at least `lo`,
strictly increasing with four-byte patch regions that do not overlap, all
ending inside a code buffer of length `n`. -/
def chainFrom (lo : Nat) : List Fixup → Nat → Prop
  | [], n => lo ≤ n
  | f :: fs, n => lo ≤ f.offset ∧ chainFrom (f.offset + 4) fs n

/-- C1 (counterexample): the stream `Jz 3, Add 257, Jnz 0` satisfies the
jump-pair invariant, yet `Optimise` returns `Jz 3, Add 1, Jnz 0`, which
contains a matched three-op `Jz, Add +1, Jnz` clear-loop window: the final
`removeNoOps` pass normalises 257 to 1 after `clearLoops` has already run,
and the round changes no length, so the loop exits without re-checking. -/
theorem c1_clear_loop_counterexample :
    jumpPairInv [⟨.OpJz, 3, none⟩, ⟨.OpAdd, 257, none⟩, ⟨.OpJnz, 0, none⟩] = true ∧
    Optimise [⟨.OpJz, 3, none⟩, ⟨.OpAdd, 257, none⟩, ⟨.OpJnz, 0, none⟩] =
      [⟨.OpJz, 3, none⟩, ⟨.OpAdd, 1, none⟩, ⟨.OpJnz, 0, none⟩] ∧
    hasMatchedClearLoop
      (Optimise [⟨.OpJz, 3, none⟩, ⟨.OpAdd, 257, none⟩, ⟨.OpJnz, 0, none⟩]) = true := by
  decide

/-- C2: on the stream `Shift 30000, Shift -30000` (which satisfies the
jump-pair invariant) the interpreter fails with the out-of-bounds runtime
error at pc 0, while `Optimise` merges the shifts into `Shift 0` and drops
it, so interpreting the optimised (empty) stream succeeds: both runs
terminate with no I/O, but with different success/failure outcomes, against
the claimed observational equivalence. -/
theorem c2_optimise_erases_bounds_failure :
    jumpPairInv c2Ops = true ∧
    Optimise c2Ops = [] ∧
    isFailed (Run defaultConfig c2Ops 5 (initState defaultConfig [])) = true ∧
    errOf (Run defaultConfig c2Ops 5 (initState defaultConfig [])) =
      some ⟨.outOfBounds 30000 29999, none, 0⟩ ∧
    isFinished (Run defaultConfig (Optimise c2Ops) 5 (initState defaultConfig [])) = true := by
  decide

/-- C3: `Tokenize` is not total on arbitrary bytes.  The byte `'a' = 97`
exceeds the length 94 of the `charToToken` array, so `charToToken[b]`
panics (modelled by `none`) instead of silently discarding the byte; bytes
up to `']' = 93` are handled as claimed. -/
theorem c3_tokenize_panics_on_high_byte :
    Tokenize [97] = none ∧
    Tokenize [93] = some [⟨.TokRBracket, ⟨0, 1, 1⟩⟩, ⟨.TokEOF, ⟨1, 1, 2⟩⟩] := by
  decide

/-- C4: on the token stream of `++[`, `Lower` reports "unmatched '['" at
position offset 1 (the second `+`), not at the position of the open bracket
(offset 2): `loopStack[0]` is the IR index 1 of the open `Jz`, and the code
uses it to index the token slice. -/
theorem c4_unmatched_open_wrong_position :
    Tokenize [43, 43, 91] =
      some [⟨.TokAdd, ⟨0, 1, 1⟩⟩, ⟨.TokAdd, ⟨1, 1, 2⟩⟩, ⟨.TokLBracket, ⟨2, 1, 3⟩⟩,
        ⟨.TokEOF, ⟨3, 1, 4⟩⟩] ∧
    Lower [⟨.TokAdd, ⟨0, 1, 1⟩⟩, ⟨.TokAdd, ⟨1, 1, 2⟩⟩, ⟨.TokLBracket, ⟨2, 1, 3⟩⟩,
        ⟨.TokEOF, ⟨3, 1, 4⟩⟩] =
      .error ⟨.unmatchedOpen, ⟨1, 1, 2⟩⟩ := by
  decide

/-- C5 (counterexample): lowering `+[->++<]` and optimising at level 2 does
not produce the listing of scenario S1: the loop body keeps the source
order `ADD -1, SHIFT +1, ADD +2, SHIFT -1` and the `JZ` argument is 7 (one
past the `JNZ`), not 5. -/
theorem c5_listing_counterexample :
    (c5Pipeline.map fun l => (OptimiseWithLevel l 2).map fun o => (o.kind, o.arg)) ≠
      some c5Claimed ∧
    c5Pipeline.isSome = true := by
  decide

/-- C5 (amended): the actual level-2 IR of `+[->++<]` is the 7-op stream
`000: ADD +1, 001: JZ 7, 002: ADD -1, 003: SHIFT +1, 004: ADD +2,
005: SHIFT -1, 006: JNZ 1`, and this stream is a fixed point of the
optimiser. -/
theorem c5_actual_listing :
    (c5Pipeline.map fun l => (OptimiseWithLevel l 2).map fun o => (o.kind, o.arg)) =
      some [(.OpAdd, 1), (.OpJz, 7), (.OpAdd, -1), (.OpShift, 1), (.OpAdd, 2),
        (.OpShift, -1), (.OpJnz, 1)] ∧
    c5Pipeline.map (fun l => OptimiseWithLevel (OptimiseWithLevel l 2) 2) =
      c5Pipeline.map (fun l => OptimiseWithLevel l 2) := by
  decide

/-- A tape read with the pointer inside the tape succeeds. -/
theorem memRead_isSome {mem : List Nat} {dp : Int} (h0 : 0 ≤ dp)
    (h1 : dp < (mem.length : Int)) : ∃ c, memRead mem dp = some c := by
  unfold memRead
  rw [if_neg (by omega)]
  have hlt : dp.toNat < mem.length := by omega
  exact ⟨mem[dp.toNat], List.getElem?_eq_getElem hlt⟩

/-- A tape write with the pointer inside the tape succeeds and sets the cell. -/
theorem memWrite_isSome {mem : List Nat} {dp : Int} (v : Nat) (h0 : 0 ≤ dp)
    (h1 : dp < (mem.length : Int)) :
    memWrite mem dp v = some (mem.set dp.toNat v) := by
  unfold memWrite
  rw [if_neg (by omega), if_pos (by omega)]

/-- A fetch with `0 ≤ pc < len` reduces one interpreter iteration to the
dispatch on the fetched op's kind. -/
theorem step_dispatch (cfg : VMConfig) (ops : List Op) (st : VMState) (op : Op)
    (hpc : 0 ≤ st.pc) (hfetch : ops[st.pc.toNat]? = some op) :
    step cfg ops st =
      match op.kind with
      | .OpShift =>
        let dp1 := wrap64 (st.dp + op.arg)
        if dp1 < 0 ∨ (cfg.memSize : Int) ≤ dp1 then
          .fail ⟨.outOfBounds dp1 ((cfg.memSize : Int) - 1), op.pos, st.pc⟩ { st with dp := dp1 }
        else .next { st with dp := dp1, pc := st.pc + 1 }
      | .OpAdd =>
        match memRead st.memory st.dp with
        | none => .crash
        | some c =>
          match memWrite st.memory st.dp ((c + byteOfInt op.arg) % 256) with
          | none => .crash
          | some m => .next { st with memory := m, pc := st.pc + 1 }
      | .OpZero =>
        match memWrite st.memory st.dp 0 with
        | none => .crash
        | some m => .next { st with memory := m, pc := st.pc + 1 }
      | .OpIn =>
        match st.inp with
        | [] =>
          match cfg.eofBehavior with
          | .EOFZero =>
            match memWrite st.memory st.dp 0 with
            | none => .crash
            | some m => .next { st with memory := m, pc := st.pc + 1 }
          | .EOFMinusOne =>
            match memWrite st.memory st.dp 255 with
            | none => .crash
            | some m => .next { st with memory := m, pc := st.pc + 1 }
          | .EOFNoChange => .next { st with pc := st.pc + 1 }
        | b :: rest =>
          match memWrite st.memory st.dp b with
          | none => .crash
          | some m => .next { st with memory := m, inp := rest, pc := st.pc + 1 }
      | .OpOut =>
        match memRead st.memory st.dp with
        | none => .crash
        | some c => .next { st with outp := st.outp ++ [c], pc := st.pc + 1 }
      | .OpJz =>
        match memRead st.memory st.dp with
        | none => .crash
        | some c =>
          if c = 0 then .next { st with pc := op.arg } else .next { st with pc := st.pc + 1 }
      | .OpJnz =>
        match memRead st.memory st.dp with
        | none => .crash
        | some c =>
          if c ≠ 0 then .next { st with pc := op.arg } else .next { st with pc := st.pc + 1 } := by
  have hlen : st.pc.toNat < ops.length := by
    by_contra hcon
    rw [List.getElem?_eq_none (Nat.le_of_not_lt hcon)] at hfetch
    exact Option.noConfusion hfetch
  have hlt : st.pc < (ops.length : Int) := by omega
  rw [step, if_pos hlt, hfetch, decide_eq_true hpc]

/-- C6: one interpreter iteration that fetches a `Shift k` first updates the
data pointer and then returns the out-of-bounds runtime error — carrying the
op's position and the current pc — exactly when the new pointer is negative
or at least `memSize`; an in-range `Shift` continues, and an iteration that
fetches an `Add` or `Zero` never returns a runtime error (tape accesses are
the safety concern of C9, not runtime errors). -/
theorem c6_shift_bounds_add_zero_total (cfg : VMConfig) (ops : List Op) (st : VMState)
    (op : Op) (hpc : 0 ≤ st.pc) (hfetch : ops[st.pc.toNat]? = some op) :
    (op.kind = .OpShift →
      step cfg ops st =
        if wrap64 (st.dp + op.arg) < 0 ∨ (cfg.memSize : Int) ≤ wrap64 (st.dp + op.arg) then
          .fail ⟨.outOfBounds (wrap64 (st.dp + op.arg)) ((cfg.memSize : Int) - 1), op.pos, st.pc⟩
            { st with dp := wrap64 (st.dp + op.arg) }
        else .next { st with dp := wrap64 (st.dp + op.arg), pc := st.pc + 1 }) ∧
    ((op.kind = .OpAdd ∨ op.kind = .OpZero) →
      ∀ e st1, step cfg ops st ≠ .fail e st1) := by
  have hstep := step_dispatch cfg ops st op hpc hfetch
  constructor
  · intro hk
    rw [hstep, hk]
  · rintro (hk | hk) e st1 <;> rw [hstep, hk]
    · cases hm : memRead st.memory st.dp with
      | none => simp [hm]
      | some c =>
        cases hw : memWrite st.memory st.dp ((c + byteOfInt op.arg) % 256) with
        | none => simp [hm, hw]
        | some m => simp [hm, hw]
    · cases hw : memWrite st.memory st.dp 0 with
      | none => simp [hw]
      | some m => simp [hw]

/-- C6 (witness): with one cell of memory, `Shift 1` from the initial state
updates the data pointer to 1 and fails out-of-bounds with the op position
and pc 0. -/
theorem c6_shift_bounds_add_zero_total_witness :
    step ⟨1, .EOFZero⟩ [⟨.OpShift, 1, none⟩] (initState ⟨1, .EOFZero⟩ []) =
      .fail ⟨.outOfBounds 1 0, none, 0⟩ ⟨[0], 1, 0, [], []⟩ :=
  ((c6_shift_bounds_add_zero_total ⟨1, .EOFZero⟩ [⟨.OpShift, 1, none⟩]
      (initState ⟨1, .EOFZero⟩ []) ⟨.OpShift, 1, none⟩ (by decide) (by decide)).1 rfl).trans
    (by decide)

/-- `setArg` preserves the length. -/
theorem setArg_length (ops : List Op) (i : Nat) (v : Int) :
    (setArg ops i v).length = ops.length := by
  unfold setArg
  cases h : ops[i]? with
  | none => rfl
  | some o => simp [List.length_set]

/-- Setting an element a list already holds is the identity. -/
theorem list_set_same {α : Type} (l : List α) (i : Nat) (a : α) (h : l[i]? = some a) :
    l.set i a = l := by
  apply List.ext_getElem?
  intro j
  rw [List.getElem?_set]
  rcases List.getElem?_eq_some.mp h with ⟨hlt, hv⟩
  by_cases hij : i = j
  · subst hij
    simp [hlt, ← hv]
  · simp [hij]

/-- `setArg` preserves the kind sequence. -/
theorem setArg_map_kind (ops : List Op) (i : Nat) (v : Int) :
    (setArg ops i v).map Op.kind = ops.map Op.kind := by
  unfold setArg
  cases h : ops[i]? with
  | none => rfl
  | some o =>
    rw [List.map_set]
    apply list_set_same
    rw [List.getElem?_map, h]
    rfl

/-- `setArg` preserves the position sequence. -/
theorem setArg_map_pos (ops : List Op) (i : Nat) (v : Int) :
    (setArg ops i v).map Op.pos = ops.map Op.pos := by
  unfold setArg
  cases h : ops[i]? with
  | none => rfl
  | some o =>
    rw [List.map_set]
    apply list_set_same
    rw [List.getElem?_map, h]
    rfl

/-- Reading the index `setArg` wrote. -/
theorem setArg_getElem?_eq {ops : List Op} {i : Nat} {o : Op} (v : Int)
    (h : ops[i]? = some o) : (setArg ops i v)[i]? = some { o with arg := v } := by
  unfold setArg
  rw [h]
  rcases List.getElem?_eq_some.mp h with ⟨hlt, _⟩
  simp [List.getElem?_set, hlt]

/-- Reading any other index after `setArg`. -/
theorem setArg_getElem?_ne {ops : List Op} {i j : Nat} (v : Int) (h : j ≠ i) :
    (setArg ops i v)[j]? = ops[j]? := by
  unfold setArg
  cases hh : ops[i]? with
  | none => rfl
  | some o => rw [List.getElem?_set_ne (fun he => h he.symm)]

/-- Unfolding one pair of `applyPairs`. -/
theorem applyPairs_cons (p : Nat × Nat) (ps : List (Nat × Nat)) (ops : List Op) :
    applyPairs (p :: ps) ops =
      applyPairs ps (setArg (setArg ops p.1 ((p.2 : Int) + 1)) p.2 (p.1 : Int)) := rfl

/-- `applyPairs` preserves the length. -/
theorem applyPairs_length (ps : List (Nat × Nat)) (ops : List Op) :
    (applyPairs ps ops).length = ops.length := by
  induction ps generalizing ops with
  | nil => rfl
  | cons p ps ih => rw [applyPairs_cons, ih, setArg_length, setArg_length]

/-- `applyPairs` preserves the kind sequence. -/
theorem applyPairs_map_kind (ps : List (Nat × Nat)) (ops : List Op) :
    (applyPairs ps ops).map Op.kind = ops.map Op.kind := by
  induction ps generalizing ops with
  | nil => rfl
  | cons p ps ih => rw [applyPairs_cons, ih, setArg_map_kind, setArg_map_kind]

/-- `applyPairs` preserves the position sequence. -/
theorem applyPairs_map_pos (ps : List (Nat × Nat)) (ops : List Op) :
    (applyPairs ps ops).map Op.pos = ops.map Op.pos := by
  induction ps generalizing ops with
  | nil => rfl
  | cons p ps ih => rw [applyPairs_cons, ih, setArg_map_pos, setArg_map_pos]

/-- Indices touched by no pair are preserved by `applyPairs`. -/
theorem applyPairs_getElem?_frame (ps : List (Nat × Nat)) (ops : List Op) (j : Nat)
    (h : ∀ p ∈ ps, p.1 ≠ j ∧ p.2 ≠ j) : (applyPairs ps ops)[j]? = ops[j]? := by
  induction ps generalizing ops with
  | nil => rfl
  | cons p ps ih =>
    rw [applyPairs_cons, ih _ fun q hq => h q (List.mem_cons_of_mem p hq),
      setArg_getElem?_ne _ fun he => (h p (List.mem_cons_self p ps)).2 he.symm,
      setArg_getElem?_ne _ fun he => (h p (List.mem_cons_self p ps)).1 he.symm]

/-- Unfolding `pairIdxs` over a cons. -/
theorem pairIdxs_cons (q : Nat × Nat) (ps : List (Nat × Nat)) :
    pairIdxs (q :: ps) = q.1 :: q.2 :: pairIdxs ps := rfl

/-- Membership in the index list of a pair list. -/
theorem mem_pairIdxs {x : Nat} {ps : List (Nat × Nat)} :
    x ∈ pairIdxs ps ↔ ∃ p ∈ ps, p.1 = x ∨ p.2 = x := by
  unfold pairIdxs
  simp [List.mem_flatMap]
  constructor
  · rintro ⟨a, b, hm, hx⟩
    exact ⟨a, b, hm, by tauto⟩
  · rintro ⟨a, b, hm, hx⟩
    exact ⟨a, b, hm, by tauto⟩

/-- After `applyPairs` with pairwise distinct indices, each pair's two ops
carry exactly the paired arguments. -/
theorem applyPairs_pair_args (ps : List (Nat × Nat)) (ops : List Op)
    (hnd : (pairIdxs ps).Nodup) (hb : ∀ p ∈ ps, p.1 < ops.length ∧ p.2 < ops.length)
    (hlt : ∀ p ∈ ps, p.1 < p.2) :
    ∀ p ∈ ps, ((applyPairs ps ops)[p.1]?).map Op.arg = some ((p.2 : Int) + 1) ∧
      ((applyPairs ps ops)[p.2]?).map Op.arg = some (p.1 : Int) := by
  induction ps generalizing ops with
  | nil => intro p hp; cases hp
  | cons q ps ih =>
    have hndq : q.1 ∉ pairIdxs ps ∧ q.2 ∉ pairIdxs ps ∧ (pairIdxs ps).Nodup := by
      rw [pairIdxs_cons, List.nodup_cons, List.nodup_cons] at hnd
      refine ⟨fun hm => hnd.1 (List.mem_cons_of_mem _ hm), hnd.2.1, hnd.2.2⟩
    have hq12 : q.1 ≠ q.2 := Nat.ne_of_lt (hlt q (List.mem_cons_self q ps))
    intro p hp
    rcases List.mem_cons.mp hp with hpq | hps
    · subst hpq
      have hframe : ∀ r ∈ ps, r.1 ≠ p.1 ∧ r.2 ≠ p.1 := by
        intro r hr
        constructor
        · intro he
          exact hndq.1 (mem_pairIdxs.mpr ⟨r, hr, Or.inl he⟩)
        · intro he
          exact hndq.1 (mem_pairIdxs.mpr ⟨r, hr, Or.inr he⟩)
      have hframe2 : ∀ r ∈ ps, r.1 ≠ p.2 ∧ r.2 ≠ p.2 := by
        intro r hr
        constructor
        · intro he
          exact hndq.2.1 (mem_pairIdxs.mpr ⟨r, hr, Or.inl he⟩)
        · intro he
          exact hndq.2.1 (mem_pairIdxs.mpr ⟨r, hr, Or.inr he⟩)
      have hp1 : p.1 < ops.length := (hb p (List.mem_cons_self p ps)).1
      have hp2 : p.2 < ops.length := (hb p (List.mem_cons_self p ps)).2
      rcases List.getElem?_eq_some.mpr ⟨hp1, rfl⟩ with h1
      rcases List.getElem?_eq_some.mpr ⟨hp2, rfl⟩ with h2
      constructor
      · rw [applyPairs_cons, applyPairs_getElem?_frame _ _ _ hframe,
          setArg_getElem?_ne _ hq12, setArg_getElem?_eq _ h1]
        rfl
      · have h2' : (setArg ops p.1 ((p.2 : Int) + 1))[p.2]? = some ops[p.2] := by
          rw [setArg_getElem?_ne _ hq12.symm]
          exact h2
        rw [applyPairs_cons, applyPairs_getElem?_frame _ _ _ hframe2,
          setArg_getElem?_eq _ h2']
        rfl
    · have hb' : ∀ r ∈ ps, r.1 < (setArg (setArg ops q.1 ((q.2 : Int) + 1)) q.2 (q.1 : Int)).length ∧
          r.2 < (setArg (setArg ops q.1 ((q.2 : Int) + 1)) q.2 (q.1 : Int)).length := by
        intro r hr
        rw [setArg_length, setArg_length]
        exact hb r (List.mem_cons_of_mem q hr)
      rw [applyPairs_cons]
      exact ih _ hndq.2.2 hb' (fun r hr => hlt r (List.mem_cons_of_mem q hr)) p hps

/-- The bracket walk skips any kind other than `Jz`/`Jnz`. -/
theorem walkPairsAux_step_other (i : Nat) (k : OpKind) (ks : List OpKind) (stack : List Nat)
    (hk1 : k ≠ .OpJz) (hk2 : k ≠ .OpJnz) :
    walkPairsAux i (k :: ks) stack = walkPairsAux (i + 1) ks stack := by
  cases k
  case OpJz => exact (hk1 rfl).elim
  case OpJnz => exact (hk2 rfl).elim
  all_goals rw [walkPairsAux]
  all_goals intros
  all_goals simp_all

/-- The `fixJumpTargets` walk skips any kind other than `Jz`/`Jnz`. -/
theorem fixAux_step_other (i : Nat) (k : OpKind) (ks : List OpKind) (stack : List Nat)
    (ops : List Op) (hk1 : k ≠ .OpJz) (hk2 : k ≠ .OpJnz) :
    fixAux i (k :: ks) stack ops = fixAux (i + 1) ks stack ops := by
  cases k
  case OpJz => exact (hk1 rfl).elim
  case OpJnz => exact (hk2 rfl).elim
  all_goals rw [fixAux]
  all_goals intros
  all_goals simp_all

/-- In case6 of `walkPairsAux.induct` the head kind is neither `Jz` nor
`Jnz` whenever the stack shape hypotheses are available. -/
theorem not_jnz_of_stack_contra {k : OpKind} {stack : List Nat}
    (hk2 : ∀ (start : Nat) (rest : List Nat), k = .OpJnz → stack = start :: rest → False)
    (hk3 : k = .OpJnz → stack = [] → False) : k ≠ .OpJnz := by
  intro hkk
  cases stack with
  | nil => exact hk3 hkk rfl
  | cons a b => exact hk2 a b hkk rfl

/-- Every pair the bracket walk produces closes at or after the current
index, opens on the stack or at or after the current index, opens strictly
before it closes, and closes inside the remaining kinds. -/
theorem walkPairsAux_spec (i : Nat) (ks : List OpKind) (stack : List Nat) :
    ∀ ps, walkPairsAux i ks stack = some ps → (∀ s ∈ stack, s < i) →
      ∀ p ∈ ps, (p.1 ∈ stack ∨ i ≤ p.1) ∧ p.1 < p.2 ∧ i ≤ p.2 ∧ p.2 < i + ks.length := by
  induction i, ks, stack using walkPairsAux.induct with
  | case1 i =>
    intro ps h _ p hp
    rw [walkPairsAux] at h
    cases h
    cases hp
  | case2 i s rest =>
    intro ps h _ p hp
    rw [walkPairsAux] at h
    cases h
  | case3 i ks stack ih =>
    intro ps h hst p hp
    rw [walkPairsAux] at h
    have hst' : ∀ s ∈ i :: stack, s < i + 1 := by
      intro s hs
      rcases List.mem_cons.mp hs with hs | hs
      · omega
      · have := hst s hs
        omega
    obtain ⟨h1, h2, h3, h4⟩ := ih ps h hst' p hp
    refine ⟨?_, h2, by omega, by simp only [List.length_cons]; omega⟩
    rcases h1 with h1 | h1
    · rcases List.mem_cons.mp h1 with h1 | h1
      · right
        omega
      · left
        exact h1
    · right
      omega
  | case4 i ks start rest ih =>
    intro ps h hst p hp
    rw [walkPairsAux] at h
    rcases Option.map_eq_some'.mp h with ⟨ps', hps', hcons⟩
    subst hcons
    rcases List.mem_cons.mp hp with hp | hp
    · subst hp
      have hs : start < i := hst start (List.mem_cons_self start rest)
      exact ⟨Or.inl (List.mem_cons_self start rest), hs, Nat.le_refl i,
        by simp only [List.length_cons]; omega⟩
    · have hst' : ∀ s ∈ rest, s < i + 1 := by
        intro s hs
        have := hst s (List.mem_cons_of_mem start hs)
        omega
      obtain ⟨h1, h2, h3, h4⟩ := ih ps' hps' hst' p hp
      refine ⟨?_, h2, by omega, by simp only [List.length_cons]; omega⟩
      rcases h1 with h1 | h1
      · exact Or.inl (List.mem_cons_of_mem start h1)
      · right
        omega
  | case5 i ks =>
    intro ps h _ p hp
    rw [walkPairsAux] at h
    cases h
  | case6 i k ks stack hk1 hk2 hk3 ih =>
    intro ps h hst p hp
    have hstep : walkPairsAux i (k :: ks) stack = walkPairsAux (i + 1) ks stack := by
      cases k
      case OpJz => exact (hk1 rfl).elim
      case OpJnz =>
        cases stack with
        | nil => exact (hk3 rfl rfl).elim
        | cons a b => exact (hk2 a b rfl rfl).elim
      all_goals rw [walkPairsAux]
      all_goals intros
      all_goals simp_all
    rw [hstep] at h
    obtain ⟨h1, h2, h3, h4⟩ := ih ps h (fun s hs => Nat.lt_succ_of_lt (hst s hs)) p hp
    refine ⟨?_, h2, by omega, by simp only [List.length_cons]; omega⟩
    rcases h1 with h1 | h1
    · exact Or.inl h1
    · right
      omega

/-- Every stack entry and every bracket kind in the remaining sequence is
matched in the pairs a successful walk returns. -/
theorem walkPairsAux_coverage (i : Nat) (ks : List OpKind) (stack : List Nat) :
    ∀ ps, walkPairsAux i ks stack = some ps →
      (∀ s ∈ stack, ∃ p ∈ ps, p.1 = s) ∧
      (∀ j k, ks[j]? = some k →
        (k = .OpJz → ∃ p ∈ ps, p.1 = i + j) ∧ (k = .OpJnz → ∃ p ∈ ps, p.2 = i + j)) := by
  induction i, ks, stack using walkPairsAux.induct with
  | case1 i =>
    intro ps h
    rw [walkPairsAux] at h
    cases h
    constructor
    · intro s hs
      cases hs
    · intro j k hk
      rw [List.getElem?_nil] at hk
      cases hk
  | case2 i s rest =>
    intro ps h
    rw [walkPairsAux] at h
    cases h
  | case3 i ks stack ih =>
    intro ps h
    rw [walkPairsAux] at h
    obtain ⟨hstk, hidx⟩ := ih ps h
    constructor
    · intro s hs
      exact hstk s (List.mem_cons_of_mem i hs)
    · intro j k hk
      cases j with
      | zero =>
        rw [List.getElem?_cons_zero] at hk
        cases hk
        constructor
        · intro _
          exact hstk i (List.mem_cons_self i stack)
        · intro hcontra
          cases hcontra
      | succ j =>
        rw [List.getElem?_cons_succ] at hk
        have hj := hidx j k hk
        constructor
        · intro hkk
          obtain ⟨p, hp, he⟩ := hj.1 hkk
          exact ⟨p, hp, by omega⟩
        · intro hkk
          obtain ⟨p, hp, he⟩ := hj.2 hkk
          exact ⟨p, hp, by omega⟩
  | case4 i ks start rest ih =>
    intro ps h
    rw [walkPairsAux] at h
    rcases Option.map_eq_some'.mp h with ⟨ps', hps', rfl⟩
    obtain ⟨hstk, hidx⟩ := ih ps' hps'
    constructor
    · intro s hs
      rcases List.mem_cons.mp hs with rfl | hs
      · exact ⟨(s, i), List.mem_cons_self _ _, rfl⟩
      · obtain ⟨p, hp, he⟩ := hstk s hs
        exact ⟨p, List.mem_cons_of_mem _ hp, he⟩
    · intro j k hk
      cases j with
      | zero =>
        rw [List.getElem?_cons_zero] at hk
        cases hk
        constructor
        · intro hcontra
          cases hcontra
        · intro _
          exact ⟨(start, i), List.mem_cons_self _ _, by omega⟩
      | succ j =>
        rw [List.getElem?_cons_succ] at hk
        have hj := hidx j k hk
        constructor
        · intro hkk
          obtain ⟨p, hp, he⟩ := hj.1 hkk
          exact ⟨p, List.mem_cons_of_mem _ hp, by omega⟩
        · intro hkk
          obtain ⟨p, hp, he⟩ := hj.2 hkk
          exact ⟨p, List.mem_cons_of_mem _ hp, by omega⟩
  | case5 i ks =>
    intro ps h
    rw [walkPairsAux] at h
    cases h
  | case6 i k ks stack hk1 hk2 hk3 ih =>
    intro ps h
    rw [walkPairsAux_step_other i k ks stack hk1 (not_jnz_of_stack_contra hk2 hk3)] at h
    obtain ⟨hstk, hidx⟩ := ih ps h
    refine ⟨hstk, ?_⟩
    intro j kk hk
    cases j with
    | zero =>
      rw [List.getElem?_cons_zero] at hk
      cases hk
      exact ⟨fun hkk => (hk1 hkk).elim, fun hkk => ((not_jnz_of_stack_contra hk2 hk3) hkk).elim⟩
    | succ j =>
      rw [List.getElem?_cons_succ] at hk
      have hj := hidx j kk hk
      constructor
      · intro hkk
        obtain ⟨p, hp, he⟩ := hj.1 hkk
        exact ⟨p, hp, by omega⟩
      · intro hkk
        obtain ⟨p, hp, he⟩ := hj.2 hkk
        exact ⟨p, hp, by omega⟩

/-- On a distinct stack of already-open indices, the walk produces pairs
with pairwise distinct components. -/
theorem walkPairsAux_nodup (i : Nat) (ks : List OpKind) (stack : List Nat) :
    ∀ ps, walkPairsAux i ks stack = some ps → (∀ s ∈ stack, s < i) → stack.Nodup →
      (pairIdxs ps).Nodup := by
  induction i, ks, stack using walkPairsAux.induct with
  | case1 i =>
    intro ps h _ _
    rw [walkPairsAux] at h
    cases h
    exact List.nodup_nil
  | case2 i s rest =>
    intro ps h _ _
    rw [walkPairsAux] at h
    cases h
  | case3 i ks stack ih =>
    intro ps h hst hnd
    rw [walkPairsAux] at h
    apply ih ps h
    · intro s hs
      rcases List.mem_cons.mp hs with rfl | hs
      · omega
      · have := hst s hs
        omega
    · exact List.nodup_cons.mpr ⟨fun hm => absurd (hst i hm) (by omega), hnd⟩
  | case4 i ks start rest ih =>
    intro ps h hst hnd
    rw [walkPairsAux] at h
    rcases Option.map_eq_some'.mp h with ⟨ps', hps', rfl⟩
    have hst' : ∀ s ∈ rest, s < i + 1 :=
      fun s hs => Nat.lt_succ_of_lt (hst s (List.mem_cons_of_mem start hs))
    have hrec := ih ps' hps' hst' (List.nodup_cons.mp hnd).2
    have hspec := walkPairsAux_spec (i + 1) ks rest ps' hps' hst'
    have hstartlt : start < i := hst start (List.mem_cons_self _ _)
    rw [pairIdxs_cons]
    have hstart : start ∉ pairIdxs ps' := by
      intro hm
      rcases mem_pairIdxs.mp hm with ⟨p, hp, he | he⟩
      · rcases (hspec p hp).1 with h1 | h1
        · exact (List.nodup_cons.mp hnd).1 (he ▸ h1)
        · omega
      · have := (hspec p hp).2.2.1
        omega
    have hi : i ∉ pairIdxs ps' := by
      intro hm
      rcases mem_pairIdxs.mp hm with ⟨p, hp, he | he⟩
      · rcases (hspec p hp).1 with h1 | h1
        · have := hst p.1 (List.mem_cons_of_mem start h1)
          omega
        · omega
      · have := (hspec p hp).2.2.1
        omega
    refine List.nodup_cons.mpr ⟨?_, List.nodup_cons.mpr ⟨hi, hrec⟩⟩
    intro hm
    rcases List.mem_cons.mp hm with he | hm2
    · omega
    · exact hstart hm2
  | case5 i ks =>
    intro ps h _ _
    rw [walkPairsAux] at h
    cases h
  | case6 i k ks stack hk1 hk2 hk3 ih =>
    intro ps h hst hnd
    rw [walkPairsAux_step_other i k ks stack hk1 (not_jnz_of_stack_contra hk2 hk3)] at h
    exact ih ps h (fun s hs => Nat.lt_succ_of_lt (hst s hs)) hnd

/-- On a balanced remainder, the net effect of the `fixJumpTargets` walk is
to write the paired arguments of every matched pair. -/
theorem fixAux_eq_applyPairs (i : Nat) (ks : List OpKind) (stack : List Nat) :
    ∀ ops ps, walkPairsAux i ks stack = some ps → fixAux i ks stack ops = applyPairs ps ops := by
  induction i, ks, stack using walkPairsAux.induct with
  | case1 i =>
    intro ops ps h
    rw [walkPairsAux] at h
    cases h
    rw [fixAux]
    rfl
  | case2 i s rest =>
    intro ops ps h
    rw [walkPairsAux] at h
    cases h
  | case3 i ks stack ih =>
    intro ops ps h
    rw [walkPairsAux] at h
    rw [fixAux]
    exact ih ops ps h
  | case4 i ks start rest ih =>
    intro ops ps h
    rw [walkPairsAux] at h
    rcases Option.map_eq_some'.mp h with ⟨ps', hps', rfl⟩
    rw [fixAux, applyPairs_cons]
    exact ih _ ps' hps'
  | case5 i ks =>
    intro ops ps h
    rw [walkPairsAux] at h
    cases h
  | case6 i k ks stack hk1 hk2 hk3 ih =>
    intro ops ps h
    rw [walkPairsAux_step_other i k ks stack hk1 (not_jnz_of_stack_contra hk2 hk3)] at h
    rw [fixAux_step_other i k ks stack ops hk1 (not_jnz_of_stack_contra hk2 hk3)]
    exact ih ops ps h

/-- The bracket walk depends only on the kind sequence. -/
theorem walkPairs_congr (ops1 ops2 : List Op) (h : ops1.map Op.kind = ops2.map Op.kind) :
    walkPairs ops1 = walkPairs ops2 := by
  unfold walkPairs
  rw [h]

/-- The length of the `fixJumpTargets` walk's output. -/
theorem fixAux_length (ks : List OpKind) :
    ∀ i stack ops, (fixAux i ks stack ops).length = ops.length := by
  induction ks with
  | nil =>
    intro i stack ops
    rw [fixAux]
  | cons k ks ih =>
    intro i stack ops
    cases k
    case OpJz =>
      rw [fixAux]
      exact ih _ _ _
    case OpJnz =>
      cases stack with
      | nil =>
        rw [fixAux]
        exact ih _ _ _
      | cons a b =>
        rw [fixAux, ih, setArg_length, setArg_length]
    all_goals rw [fixAux_step_other _ _ _ _ _ (by simp) (by simp)]
    all_goals exact ih _ _ _

/-- The kind sequence of the `fixJumpTargets` walk's output. -/
theorem fixAux_map_kind (ks : List OpKind) :
    ∀ i stack ops, (fixAux i ks stack ops).map Op.kind = ops.map Op.kind := by
  induction ks with
  | nil =>
    intro i stack ops
    rw [fixAux]
  | cons k ks ih =>
    intro i stack ops
    cases k
    case OpJz =>
      rw [fixAux]
      exact ih _ _ _
    case OpJnz =>
      cases stack with
      | nil =>
        rw [fixAux]
        exact ih _ _ _
      | cons a b =>
        rw [fixAux, ih, setArg_map_kind, setArg_map_kind]
    all_goals rw [fixAux_step_other _ _ _ _ _ (by simp) (by simp)]
    all_goals exact ih _ _ _

/-- The position sequence of the `fixJumpTargets` walk's output. -/
theorem fixAux_map_pos (ks : List OpKind) :
    ∀ i stack ops, (fixAux i ks stack ops).map Op.pos = ops.map Op.pos := by
  induction ks with
  | nil =>
    intro i stack ops
    rw [fixAux]
  | cons k ks ih =>
    intro i stack ops
    cases k
    case OpJz =>
      rw [fixAux]
      exact ih _ _ _
    case OpJnz =>
      cases stack with
      | nil =>
        rw [fixAux]
        exact ih _ _ _
      | cons a b =>
        rw [fixAux, ih, setArg_map_pos, setArg_map_pos]
    all_goals rw [fixAux_step_other _ _ _ _ _ (by simp) (by simp)]
    all_goals exact ih _ _ _

/-- `fixJumpTargets` preserves length. -/
theorem fixJumpTargets_length (ops : List Op) : (fixJumpTargets ops).length = ops.length :=
  fixAux_length _ _ _ _

/-- `fixJumpTargets` preserves the kind sequence. -/
theorem fixJumpTargets_map_kind (ops : List Op) :
    (fixJumpTargets ops).map Op.kind = ops.map Op.kind :=
  fixAux_map_kind _ _ _ _

/-- On a bracket-balanced stream, `fixJumpTargets` establishes the
jump-pair invariant. -/
theorem jumpPairInv_fixJumpTargets (ops : List Op) (ps : List (Nat × Nat))
    (h : walkPairs ops = some ps) : jumpPairInv (fixJumpTargets ops) = true := by
  have hfix : fixJumpTargets ops = applyPairs ps ops := fixAux_eq_applyPairs 0 _ [] ops ps h
  have hw2 : walkPairs (applyPairs ps ops) = some ps := by
    rw [walkPairs_congr (applyPairs ps ops) ops (applyPairs_map_kind ps ops)]
    exact h
  rw [hfix]
  unfold jumpPairInv
  rw [hw2]
  rw [List.all_eq_true]
  intro p hp
  have hspec := walkPairsAux_spec 0 (ops.map Op.kind) [] ps h (by intro s hs; cases hs)
  have hnd := walkPairsAux_nodup 0 (ops.map Op.kind) [] ps h (by intro s hs; cases hs)
    List.nodup_nil
  have hb : ∀ q ∈ ps, q.1 < ops.length ∧ q.2 < ops.length := by
    intro q hq
    obtain ⟨h1, h2, h3, h4⟩ := hspec q hq
    rw [List.length_map] at h4
    rcases h1 with h1 | h1
    · cases h1
    · omega
  have hlt : ∀ q ∈ ps, q.1 < q.2 := fun q hq => (hspec q hq).2.1
  have hargs := applyPairs_pair_args ps ops hnd hb hlt p hp
  simp [hargs.1, hargs.2]

/-- The depth walk skips any kind other than `Jz`/`Jnz`. -/
theorem balSt_step_other (k : OpKind) (ks : List OpKind) (d : Nat)
    (hk1 : k ≠ .OpJz) (hk2 : k ≠ .OpJnz) : balSt (k :: ks) d = balSt ks d := by
  cases k
  case OpJz => exact (hk1 rfl).elim
  case OpJnz => exact (hk2 rfl).elim
  all_goals rw [balSt]
  all_goals intros
  all_goals simp_all

/-- The depth walk is compositional over append. -/
theorem balSt_append (xs ys : List OpKind) :
    ∀ d, balSt (xs ++ ys) d = (balSt xs d).bind fun e => balSt ys e := by
  induction xs with
  | nil =>
    intro d
    rw [List.nil_append, balSt, Option.bind]
  | cons k xs ih =>
    intro d
    cases k
    case OpJz =>
      rw [List.cons_append, balSt, balSt, ih]
    case OpJnz =>
      cases d with
      | zero =>
        rw [List.cons_append, balSt, balSt, Option.bind]
      | succ d =>
        rw [List.cons_append, balSt, balSt, ih]
    all_goals rw [List.cons_append, balSt_step_other _ _ _ (by simp) (by simp),
      balSt_step_other _ _ _ (by simp) (by simp), ih]

/-- The pair walk succeeds exactly when the depth walk from the stack's
depth ends balanced. -/
theorem walkPairsAux_isSome_iff (i : Nat) (ks : List OpKind) (stack : List Nat) :
    (walkPairsAux i ks stack).isSome = true ↔ balSt ks stack.length = some 0 := by
  induction i, ks, stack using walkPairsAux.induct with
  | case1 i =>
    rw [walkPairsAux, balSt]
    simp
  | case2 i s rest =>
    rw [walkPairsAux, balSt]
    simp
  | case3 i ks stack ih =>
    rw [walkPairsAux, balSt]
    exact ih
  | case4 i ks start rest ih =>
    rw [walkPairsAux]
    simp only [List.length_cons]
    rw [balSt, Option.isSome_map']
    exact ih
  | case5 i ks =>
    rw [walkPairsAux]
    simp only [List.length_nil]
    rw [balSt]
    simp
  | case6 i k ks stack hk1 hk2 hk3 ih =>
    rw [walkPairsAux_step_other i k ks stack hk1 (not_jnz_of_stack_contra hk2 hk3),
      balSt_step_other k ks stack.length hk1 (not_jnz_of_stack_contra hk2 hk3)]
    exact ih

/-- Cons decomposition of `drop` at a known element. -/
theorem drop_cons_of_getElem? {α : Type} {l : List α} {i : Nat} {a : α}
    (h : l[i]? = some a) : l.drop i = a :: l.drop (i + 1) := by
  rcases List.getElem?_eq_some.mp h with ⟨hlt, rfl⟩
  exact List.drop_eq_getElem_cons hlt

/-- What a true clear-loop condition says about the three ops it reads. -/
theorem clearCond_spec {ops : List Op} {i : Nat} (h : clearCond ops i = true) :
    ∃ a b c, ops[i]? = some a ∧ ops[i + 1]? = some b ∧ ops[i + 2]? = some c ∧
      a.kind = .OpJz ∧ b.kind = .OpAdd ∧ (b.arg = 1 ∨ b.arg = -1) ∧ c.kind = .OpJnz ∧
      a.arg = (i : Int) + 3 ∧ c.arg = (i : Int) := by
  unfold clearCond at h
  cases h1 : ops[i]? with
  | none => rw [h1] at h; cases h
  | some a =>
    cases h2 : ops[i + 1]? with
    | none => rw [h1, h2] at h; cases h
    | some b =>
      cases h3 : ops[i + 2]? with
      | none => rw [h1, h2, h3] at h; cases h
      | some c =>
        rw [h1, h2, h3] at h
        simp only [Bool.and_eq_true, beq_iff_eq, Bool.or_eq_true] at h
        exact ⟨a, b, c, rfl, rfl, rfl, h.1.1.1.1.1, h.1.1.1.1.2, h.1.1.1.2, h.1.1.2, h.1.2, h.2⟩

/-- What a true empty-loop condition says about the two ops it reads. -/
theorem emptyCond_spec {ops : List Op} {i : Nat} (h : emptyCond ops i = true) :
    ∃ a b, ops[i]? = some a ∧ ops[i + 1]? = some b ∧
      a.kind = .OpJz ∧ b.kind = .OpJnz ∧ a.arg = (i : Int) + 2 ∧ b.arg = (i : Int) := by
  unfold emptyCond at h
  cases h1 : ops[i]? with
  | none => rw [h1] at h; cases h
  | some a =>
    cases h2 : ops[i + 1]? with
    | none => rw [h1, h2] at h; cases h
    | some b =>
      rw [h1, h2] at h
      simp only [Bool.and_eq_true, beq_iff_eq] at h
      exact ⟨a, b, rfl, rfl, h.1.1.1, h.1.1.2, h.1.2, h.2⟩

/-- Building a true empty-loop condition from its components. -/
theorem emptyCond_intro {ops : List Op} {i : Nat} {a b : Op}
    (h1 : ops[i]? = some a) (h2 : ops[i + 1]? = some b) (hak : a.kind = .OpJz)
    (hbk : b.kind = .OpJnz) (haa : a.arg = (i : Int) + 2) (hba : b.arg = (i : Int)) :
    emptyCond ops i = true := by
  unfold emptyCond
  rw [h1, h2]
  simp [hak, hbk, haa, hba]

/-- The empty depth walk. -/
theorem balSt_nil (d : Nat) : balSt [] d = some d := rfl

/-- Equal tails give equal depth walks under a common head. -/
theorem balSt_cons_congr (k : OpKind) (l1 l2 : List OpKind)
    (h : ∀ d, balSt l1 d = balSt l2 d) : ∀ d, balSt (k :: l1) d = balSt (k :: l2) d := by
  intro d
  cases k
  case OpJz =>
    rw [balSt, balSt]
    exact h _
  case OpJnz =>
    cases d with
    | zero => rw [balSt, balSt]
    | succ d =>
      rw [balSt, balSt]
      exact h _
  all_goals rw [balSt_step_other _ _ _ (by simp) (by simp),
    balSt_step_other _ _ _ (by simp) (by simp)]
  all_goals exact h _

/-- The clear-loop scan preserves the depth walk of the remaining stream. -/
theorem clearScanF_balSt (fuel : Nat) :
    ∀ (ops : List Op) (i d : Nat), ops.length - i ≤ fuel →
      balSt ((clearScanF fuel ops i).map Op.kind) d = balSt ((ops.drop i).map Op.kind) d := by
  induction fuel with
  | zero =>
    intro ops i d hf
    rw [clearScanF, List.drop_eq_nil_of_le (by omega)]
  | succ fuel ih =>
    intro ops i d hf
    rw [clearScanF]
    cases hget : ops[i]? with
    | none =>
      dsimp only
      have hlen : ops.length ≤ i := by
        by_contra hc
        rw [List.getElem?_eq_getElem (by omega)] at hget
        cases hget
      rw [List.drop_eq_nil_of_le hlen]
    | some op =>
      dsimp only
      have hilt : i < ops.length := (List.getElem?_eq_some.mp hget).1
      by_cases hcond : clearCond ops i = true
      · rw [if_pos hcond]
        obtain ⟨a, b, c, h1, h2, h3, hak, hbk, hba, hck, haa, hca⟩ := clearCond_spec hcond
        rw [drop_cons_of_getElem? h1, drop_cons_of_getElem? h2, drop_cons_of_getElem? h3]
        simp only [List.map_cons]
        rw [hak, hbk, hck, balSt_step_other .OpZero _ _ (by simp) (by simp), balSt,
          balSt_step_other .OpAdd _ _ (by simp) (by simp), balSt]
        exact ih ops (i + 3) d (by omega)
      · rw [if_neg hcond]
        rw [drop_cons_of_getElem? hget]
        simp only [List.map_cons]
        exact balSt_cons_congr op.kind _ _ (fun e => ih ops (i + 1) e (by omega)) d

/-- Length bound for the clear-loop scan. -/
theorem clearScanF_length_le (fuel : Nat) :
    ∀ (ops : List Op) (i : Nat), (clearScanF fuel ops i).length ≤ ops.length - i := by
  induction fuel with
  | zero =>
    intro ops i
    rw [clearScanF]
    simp
  | succ fuel ih =>
    intro ops i
    rw [clearScanF]
    cases hget : ops[i]? with
    | none => simp
    | some op =>
      dsimp only
      have hilt : i < ops.length := (List.getElem?_eq_some.mp hget).1
      by_cases hcond : clearCond ops i = true
      · rw [if_pos hcond]
        obtain ⟨a, b, c, h1, h2, h3, _⟩ := clearCond_spec hcond
        have h2lt : i + 2 < ops.length := (List.getElem?_eq_some.mp h3).1
        have := ih ops (i + 3)
        simp only [List.length_cons]
        omega
      · rw [if_neg hcond]
        have := ih ops (i + 1)
        simp only [List.length_cons]
        omega

/-- A clear-loop scan that deletes nothing is a copy of the remainder. -/
theorem clearScanF_copy (fuel : Nat) :
    ∀ (ops : List Op) (i : Nat), ops.length - i ≤ fuel →
      (clearScanF fuel ops i).length = ops.length - i →
      clearScanF fuel ops i = ops.drop i := by
  induction fuel with
  | zero =>
    intro ops i hf hl
    rw [clearScanF, List.drop_eq_nil_of_le (by omega)]
  | succ fuel ih =>
    intro ops i hf hl
    rw [clearScanF] at hl ⊢
    cases hget : ops[i]? with
    | none =>
      have hlen : ops.length ≤ i := by
        by_contra hc
        rw [List.getElem?_eq_getElem (by omega)] at hget
        cases hget
      rw [List.drop_eq_nil_of_le hlen]
    | some op =>
      rw [hget] at hl
      dsimp only at hl ⊢
      have hilt : i < ops.length := (List.getElem?_eq_some.mp hget).1
      by_cases hcond : clearCond ops i = true
      · exfalso
        rw [if_pos hcond] at hl
        obtain ⟨a, b, c, h1, h2, h3, _⟩ := clearCond_spec hcond
        have h2lt : i + 2 < ops.length := (List.getElem?_eq_some.mp h3).1
        have := clearScanF_length_le fuel ops (i + 3)
        simp only [List.length_cons] at hl
        omega
      · rw [if_neg hcond] at hl ⊢
        simp only [List.length_cons] at hl
        rw [ih ops (i + 1) (by omega) (by omega), drop_cons_of_getElem? hget]

/-- An out-of-range index never satisfies the empty-loop condition. -/
theorem emptyCond_oob {ops : List Op} {j : Nat} (h : ops.length ≤ j) :
    emptyCond ops j = false := by
  unfold emptyCond
  rw [List.getElem?_eq_none h]

/-- The empty-loop scan preserves the depth walk of the remaining stream. -/
theorem emptyScanF_balSt (fuel : Nat) :
    ∀ (ops : List Op) (i d : Nat), ops.length - i ≤ fuel →
      balSt ((emptyScanF fuel ops i).map Op.kind) d = balSt ((ops.drop i).map Op.kind) d := by
  induction fuel with
  | zero =>
    intro ops i d hf
    rw [emptyScanF, List.drop_eq_nil_of_le (by omega)]
  | succ fuel ih =>
    intro ops i d hf
    rw [emptyScanF]
    cases hget : ops[i]? with
    | none =>
      dsimp only
      have hlen : ops.length ≤ i := by
        by_contra hc
        rw [List.getElem?_eq_getElem (by omega)] at hget
        cases hget
      rw [List.drop_eq_nil_of_le hlen]
    | some op =>
      dsimp only
      have hilt : i < ops.length := (List.getElem?_eq_some.mp hget).1
      by_cases hcond : emptyCond ops i = true
      · rw [if_pos hcond]
        obtain ⟨a, b, h1, h2, hak, hbk, haa, hba⟩ := emptyCond_spec hcond
        rw [drop_cons_of_getElem? h1, drop_cons_of_getElem? h2]
        simp only [List.map_cons]
        rw [hak, hbk, balSt, balSt]
        exact ih ops (i + 2) d (by omega)
      · rw [if_neg hcond]
        rw [drop_cons_of_getElem? hget]
        simp only [List.map_cons]
        exact balSt_cons_congr op.kind _ _ (fun e => ih ops (i + 2 - 1) e (by omega)) d

/-- Length bound for the empty-loop scan. -/
theorem emptyScanF_length_le (fuel : Nat) :
    ∀ (ops : List Op) (i : Nat), (emptyScanF fuel ops i).length ≤ ops.length - i := by
  induction fuel with
  | zero =>
    intro ops i
    rw [emptyScanF]
    simp
  | succ fuel ih =>
    intro ops i
    rw [emptyScanF]
    cases hget : ops[i]? with
    | none => simp
    | some op =>
      dsimp only
      have hilt : i < ops.length := (List.getElem?_eq_some.mp hget).1
      by_cases hcond : emptyCond ops i = true
      · rw [if_pos hcond]
        obtain ⟨a, b, h1, h2, _⟩ := emptyCond_spec hcond
        have h2lt : i + 1 < ops.length := (List.getElem?_eq_some.mp h2).1
        have := ih ops (i + 2)
        omega
      · rw [if_neg hcond]
        have := ih ops (i + 1)
        simp only [List.length_cons]
        omega

/-- An empty-loop scan that deletes nothing is a copy of the remainder. -/
theorem emptyScanF_copy (fuel : Nat) :
    ∀ (ops : List Op) (i : Nat), ops.length - i ≤ fuel →
      (emptyScanF fuel ops i).length = ops.length - i →
      emptyScanF fuel ops i = ops.drop i := by
  induction fuel with
  | zero =>
    intro ops i hf hl
    rw [emptyScanF, List.drop_eq_nil_of_le (by omega)]
  | succ fuel ih =>
    intro ops i hf hl
    rw [emptyScanF] at hl ⊢
    cases hget : ops[i]? with
    | none =>
      have hlen : ops.length ≤ i := by
        by_contra hc
        rw [List.getElem?_eq_getElem (by omega)] at hget
        cases hget
      rw [List.drop_eq_nil_of_le hlen]
    | some op =>
      rw [hget] at hl
      dsimp only at hl ⊢
      have hilt : i < ops.length := (List.getElem?_eq_some.mp hget).1
      by_cases hcond : emptyCond ops i = true
      · exfalso
        rw [if_pos hcond] at hl
        obtain ⟨a, b, h1, h2, _⟩ := emptyCond_spec hcond
        have h2lt : i + 1 < ops.length := (List.getElem?_eq_some.mp h2).1
        have := emptyScanF_length_le fuel ops (i + 2)
        omega
      · rw [if_neg hcond] at hl ⊢
        simp only [List.length_cons] at hl
        rw [ih ops (i + 1) (by omega) (by omega), drop_cons_of_getElem? hget]

/-- An empty-loop scan that deletes nothing saw no true window anywhere at
or after its start index. -/
theorem emptyScanF_nofire (fuel : Nat) :
    ∀ (ops : List Op) (i : Nat), ops.length - i ≤ fuel →
      (emptyScanF fuel ops i).length = ops.length - i →
      ∀ j, i ≤ j → emptyCond ops j = false := by
  induction fuel with
  | zero =>
    intro ops i hf _ j hj
    exact emptyCond_oob (by omega)
  | succ fuel ih =>
    intro ops i hf hl j hj
    rw [emptyScanF] at hl
    cases hget : ops[i]? with
    | none =>
      have hlen : ops.length ≤ i := by
        by_contra hc
        rw [List.getElem?_eq_getElem (by omega)] at hget
        cases hget
      exact emptyCond_oob (by omega)
    | some op =>
      rw [hget] at hl
      dsimp only at hl ⊢
      have hilt : i < ops.length := (List.getElem?_eq_some.mp hget).1
      by_cases hcond : emptyCond ops i = true
      · exfalso
        rw [if_pos hcond] at hl
        obtain ⟨a, b, h1, h2, _⟩ := emptyCond_spec hcond
        have h2lt : i + 1 < ops.length := (List.getElem?_eq_some.mp h2).1
        have := emptyScanF_length_le fuel ops (i + 2)
        omega
      · rw [if_neg hcond] at hl
        simp only [List.length_cons] at hl
        rcases Nat.eq_or_lt_of_le hj with rfl | hjlt
        · exact Bool.not_eq_true _ ▸ (by simpa using hcond)
        · exact ih ops (i + 1) (by omega) (by omega) j (by omega)

/-- Length bound for the adjacent-merge fold. -/
theorem mergeAux_length_le :
    ∀ (l acc : List Op), (mergeAux acc l).length ≤ acc.length + l.length := by
  intro l
  induction l with
  | nil =>
    intro acc
    rw [mergeAux]
    simp
  | cons op rest ih =>
    intro acc
    cases acc with
    | nil =>
      rw [mergeAux]
      have := ih [op]
      simp only [List.length_cons, List.length_nil] at this ⊢
      omega
    | cons last accR =>
      rw [mergeAux]
      by_cases h1 : (op.kind == OpKind.OpAdd && last.kind == OpKind.OpAdd) = true
      · rw [if_pos h1]
        have := ih ({ last with arg := wrap64 (last.arg + op.arg) } :: accR)
        simp only [List.length_cons] at this ⊢
        omega
      · rw [if_neg h1]
        by_cases h2 : (op.kind == OpKind.OpShift && last.kind == OpKind.OpShift) = true
        · rw [if_pos h2]
          have := ih ({ last with arg := wrap64 (last.arg + op.arg) } :: accR)
          simp only [List.length_cons] at this ⊢
          omega
        · rw [if_neg h2]
          have := ih (op :: last :: accR)
          simp only [List.length_cons] at this ⊢
          omega

/-- An adjacent-merge fold that merges nothing is the reversed accumulator
followed by the remaining input. -/
theorem mergeAux_copy :
    ∀ (l acc : List Op), (mergeAux acc l).length = acc.length + l.length →
      mergeAux acc l = acc.reverse ++ l := by
  intro l
  induction l with
  | nil =>
    intro acc hl
    rw [mergeAux, List.append_nil]
  | cons op rest ih =>
    intro acc hl
    cases acc with
    | nil =>
      rw [mergeAux] at hl ⊢
      have := ih [op] (by simp only [List.length_cons, List.length_nil] at hl ⊢; omega)
      rw [this]
      simp
    | cons last accR =>
      rw [mergeAux] at hl ⊢
      by_cases h1 : (op.kind == OpKind.OpAdd && last.kind == OpKind.OpAdd) = true
      · exfalso
        rw [if_pos h1] at hl
        have := mergeAux_length_le rest ({ last with arg := wrap64 (last.arg + op.arg) } :: accR)
        simp only [List.length_cons] at hl this
        omega
      · rw [if_neg h1] at hl ⊢
        by_cases h2 : (op.kind == OpKind.OpShift && last.kind == OpKind.OpShift) = true
        · exfalso
          rw [if_pos h2] at hl
          have := mergeAux_length_le rest ({ last with arg := wrap64 (last.arg + op.arg) } :: accR)
          simp only [List.length_cons] at hl this
          omega
        · rw [if_neg h2] at hl ⊢
          have := ih (op :: last :: accR)
            (by simp only [List.length_cons] at hl ⊢; omega)
          rw [this]
          simp

/-- The adjacent-merge fold preserves the depth walk of the reversed
accumulator followed by the remaining input. -/
theorem mergeAux_balSt :
    ∀ (l acc : List Op) (d : Nat),
      balSt ((mergeAux acc l).map Op.kind) d = balSt ((acc.reverse ++ l).map Op.kind) d := by
  intro l
  induction l with
  | nil =>
    intro acc d
    rw [mergeAux, List.append_nil]
  | cons op rest ih =>
    intro acc d
    cases acc with
    | nil =>
      rw [mergeAux, ih]
      simp
    | cons last accR =>
      rw [mergeAux]
      by_cases h1 : (op.kind == OpKind.OpAdd && last.kind == OpKind.OpAdd) = true
      · rw [if_pos h1, ih]
        simp only [Bool.and_eq_true, beq_iff_eq] at h1
        simp only [List.reverse_cons, List.map_append, List.map_cons, List.map_nil,
          List.append_assoc, List.cons_append, List.nil_append, balSt_append]
        cases balSt (accR.reverse.map Op.kind) d with
        | none => rfl
        | some e =>
          simp only [Option.some_bind]
          rw [h1.1, h1.2]
          rw [balSt_step_other _ _ _ (by simp) (by simp),
            balSt_step_other _ _ _ (by simp) (by simp),
            balSt_step_other _ _ _ (by simp) (by simp)]
      · rw [if_neg h1]
        by_cases h2 : (op.kind == OpKind.OpShift && last.kind == OpKind.OpShift) = true
        · rw [if_pos h2, ih]
          simp only [Bool.and_eq_true, beq_iff_eq] at h2
          simp only [List.reverse_cons, List.map_append, List.map_cons, List.map_nil,
            List.append_assoc, List.cons_append, List.nil_append, balSt_append]
          cases balSt (accR.reverse.map Op.kind) d with
          | none => rfl
          | some e =>
            simp only [Option.some_bind]
            rw [h2.1, h2.2]
            rw [balSt_step_other _ _ _ (by simp) (by simp),
              balSt_step_other _ _ _ (by simp) (by simp),
              balSt_step_other _ _ _ (by simp) (by simp)]
        · rw [if_neg h2, ih]
          simp only [List.reverse_cons, List.map_append, List.map_cons, List.map_nil,
            List.append_assoc, List.cons_append, List.nil_append]

/-- Length bound for the no-op scan. -/
theorem noOpScan_length_le (l : List Op) : (noOpScan l).length ≤ l.length := by
  induction l with
  | nil => rw [noOpScan]
  | cons op rest ih =>
    rw [noOpScan]
    split
    · simp only [List.length_cons]
      omega
    · simp only [List.length_cons]
      omega

/-- The per-op normalisation does not change the kind. -/
theorem normAdd_kind (o : Op) : (normAdd o).kind = o.kind := by
  unfold normAdd
  split <;> rfl

/-- A no-op scan that drops nothing only normalises the `Add` arguments. -/
theorem noOpScan_copy (l : List Op) (hl : (noOpScan l).length = l.length) :
    noOpScan l = l.map normAdd := by
  induction l with
  | nil => rw [noOpScan, List.map_nil]
  | cons op rest ih =>
    rw [noOpScan] at hl ⊢
    rw [List.map_cons]
    by_cases hg : (((normAdd op).kind == OpKind.OpAdd ||
        (normAdd op).kind == OpKind.OpShift) && (normAdd op).arg == 0) = true
    · exfalso
      rw [if_pos hg] at hl
      have := noOpScan_length_le rest
      simp only [List.length_cons] at hl
      omega
    · rw [if_neg hg] at hl ⊢
      simp only [List.length_cons] at hl
      rw [ih (by omega)]

/-- The no-op scan preserves the depth walk. -/
theorem noOpScan_balSt (l : List Op) :
    ∀ d, balSt ((noOpScan l).map Op.kind) d = balSt (l.map Op.kind) d := by
  induction l with
  | nil =>
    intro d
    rw [noOpScan]
  | cons op rest ih =>
    intro d
    rw [noOpScan]
    by_cases hg : (((normAdd op).kind == OpKind.OpAdd ||
        (normAdd op).kind == OpKind.OpShift) && (normAdd op).arg == 0) = true
    · rw [if_pos hg, ih]
      have hk : op.kind = .OpAdd ∨ op.kind = .OpShift := by
        simp only [Bool.and_eq_true, Bool.or_eq_true, beq_iff_eq, normAdd_kind] at hg
        exact hg.1
      rw [List.map_cons]
      rcases hk with hk | hk <;>
        rw [balSt_step_other _ _ _ (by simp [hk]) (by simp [hk])]
    · rw [if_neg hg, List.map_cons, List.map_cons, normAdd_kind]
      exact balSt_cons_congr op.kind _ _ (fun e => ih e) d

/-- A stream with the jump-pair invariant has a successful pair walk. -/
theorem jumpPairInv_walkPairs {ops : List Op} (h : jumpPairInv ops = true) :
    ∃ ps, walkPairs ops = some ps := by
  unfold jumpPairInv at h
  cases hw : walkPairs ops with
  | none =>
    rw [hw] at h
    cases h
  | some ps => exact ⟨ps, rfl⟩

/-- A stream with the jump-pair invariant is bracket-balanced. -/
theorem balSt_of_inv {ops : List Op} (h : jumpPairInv ops = true) :
    balSt (ops.map Op.kind) 0 = some 0 := by
  obtain ⟨ps, hw⟩ := jumpPairInv_walkPairs h
  have hs : (walkPairsAux 0 (ops.map Op.kind) []).isSome = true := by
    unfold walkPairs at hw
    rw [hw]
    rfl
  exact (walkPairsAux_isSome_iff 0 _ []).mp hs

/-- A bracket-balanced kind sequence has a successful pair walk. -/
theorem walkPairs_of_balSt {ops : List Op} (h : balSt (ops.map Op.kind) 0 = some 0) :
    ∃ ps, walkPairs ops = some ps := by
  have hs := (walkPairsAux_isSome_iff 0 (ops.map Op.kind) []).mpr h
  unfold walkPairs
  exact Option.isSome_iff_exists.mp hs

/-- `clearLoops` preserves the jump-pair invariant. -/
theorem clearLoops_inv {x : List Op} (hx : jumpPairInv x = true) :
    jumpPairInv (clearLoops x) = true := by
  unfold clearLoops
  by_cases hlen : x.length < 3
  · rw [if_pos hlen]
    exact hx
  · rw [if_neg hlen]
    have hbal : balSt ((clearScanF x.length x 0).map Op.kind) 0 = some 0 := by
      rw [clearScanF_balSt x.length x 0 0 (by omega), List.drop_zero]
      exact balSt_of_inv hx
    obtain ⟨ps, hw⟩ := walkPairs_of_balSt hbal
    exact jumpPairInv_fixJumpTargets _ ps hw

/-- `removeEmptyLoops` preserves the jump-pair invariant. -/
theorem removeEmptyLoops_inv {x : List Op} (hx : jumpPairInv x = true) :
    jumpPairInv (removeEmptyLoops x) = true := by
  unfold removeEmptyLoops
  by_cases hlen : x.length < 2
  · rw [if_pos hlen]
    exact hx
  · rw [if_neg hlen]
    have hbal : balSt ((emptyScanF x.length x 0).map Op.kind) 0 = some 0 := by
      rw [emptyScanF_balSt x.length x 0 0 (by omega), List.drop_zero]
      exact balSt_of_inv hx
    obtain ⟨ps, hw⟩ := walkPairs_of_balSt hbal
    exact jumpPairInv_fixJumpTargets _ ps hw

/-- `mergeAdjacent` preserves the jump-pair invariant. -/
theorem mergeAdjacent_inv {x : List Op} (hx : jumpPairInv x = true) :
    jumpPairInv (mergeAdjacent x) = true := by
  unfold mergeAdjacent
  by_cases hlen : x.length < 2
  · rw [if_pos hlen]
    exact hx
  · rw [if_neg hlen]
    have hbal : balSt ((mergeAux [] x).map Op.kind) 0 = some 0 := by
      rw [mergeAux_balSt x [] 0]
      simp only [List.reverse_nil, List.nil_append]
      exact balSt_of_inv hx
    obtain ⟨ps, hw⟩ := walkPairs_of_balSt hbal
    exact jumpPairInv_fixJumpTargets _ ps hw

/-- `removeNoOps` preserves the jump-pair invariant. -/
theorem removeNoOps_inv {x : List Op} (hx : jumpPairInv x = true) :
    jumpPairInv (removeNoOps x) = true := by
  unfold removeNoOps
  have hbal : balSt ((noOpScan x).map Op.kind) 0 = some 0 := by
    rw [noOpScan_balSt x 0]
    exact balSt_of_inv hx
  obtain ⟨ps, hw⟩ := walkPairs_of_balSt hbal
  exact jumpPairInv_fixJumpTargets _ ps hw

/-- One pass round preserves the jump-pair invariant. -/
theorem optPasses_inv {x : List Op} (hx : jumpPairInv x = true) :
    jumpPairInv (optPasses x) = true :=
  removeNoOps_inv (mergeAdjacent_inv (removeEmptyLoops_inv (clearLoops_inv hx)))

/-- The fixed-point loop preserves the jump-pair invariant. -/
theorem optimiseLoop_inv :
    ∀ (fuel : Nat) (r : List Op), jumpPairInv r = true →
      jumpPairInv (optimiseLoop fuel r) = true := by
  intro fuel
  induction fuel with
  | zero =>
    intro r hr
    rw [optimiseLoop]
    exact hr
  | succ fuel ih =>
    intro r hr
    rw [optimiseLoop]
    by_cases hl : (optPasses r).length = r.length
    · rw [if_pos hl]
      exact optPasses_inv hr
    · rw [if_neg hl]
      exact ih _ (optPasses_inv hr)

/-- Reading a kind through `setArg`. -/
theorem setArg_kind_at (ops : List Op) (t : Nat) (v : Int) (j : Nat) :
    ((setArg ops t v)[j]?).map Op.kind = (ops[j]?).map Op.kind := by
  by_cases hjt : j = t
  · subst hjt
    cases ho : ops[j]? with
    | none =>
      simp only [setArg, ho]
    | some o =>
      rw [setArg_getElem?_eq v ho]
      rfl
  · rw [setArg_getElem?_ne v hjt]

/-- `setArg` at a bracket position preserves per-op normalisation facts. -/
theorem setArg_normOk_preserve {ops : List Op} {t : Nat} {v : Int}
    (hkind : ((ops[t]?).map Op.kind = some .OpJz) ∨ ((ops[t]?).map Op.kind = some .OpJnz))
    (h : ∀ (j : Nat) (o : Op), ops[j]? = some o → normOk o) :
    ∀ (j : Nat) (o : Op), (setArg ops t v)[j]? = some o → normOk o := by
  intro j o hj
  by_cases hjt : j = t
  · subst hjt
    cases ho : ops[j]? with
    | none =>
      unfold setArg at hj
      rw [ho] at hj
      rw [ho] at hj
      cases hj
    | some o0 =>
      rw [setArg_getElem?_eq v ho] at hj
      cases hj
      rcases hkind with hk | hk <;> rw [ho] at hk <;>
        simp only [Option.map_some', Option.some.injEq] at hk <;>
        exact ⟨fun hc => False.elim (by
            have hcc : o0.kind = OpKind.OpAdd := hc
            rw [hk] at hcc
            cases hcc),
          fun hc => False.elim (by
            have hcc : o0.kind = OpKind.OpShift := hc
            rw [hk] at hcc
            cases hcc)⟩
  · rw [setArg_getElem?_ne v hjt] at hj
    exact h j o hj

/-- The `fixJumpTargets` walk only rewrites arguments of `Jz`/`Jnz` ops, so
per-op normalisation facts about `Add` and `Shift` survive it.  `ks` is the
kind sequence of the ops from index `i` on, and every stack entry points at
a `Jz`. -/
theorem fixAux_normOk (ks : List OpKind) :
    ∀ (i : Nat) (stack : List Nat) (ops : List Op),
      (ops.map Op.kind).drop i = ks →
      (∀ s ∈ stack, ((ops[s]?).map Op.kind) = some .OpJz) →
      (∀ (j : Nat) (o : Op), ops[j]? = some o → normOk o) →
      ∀ (j : Nat) (o : Op), (fixAux i ks stack ops)[j]? = some o → normOk o := by
  induction ks with
  | nil =>
    intro i stack ops _ _ hbase
    rw [fixAux]
    exact hbase
  | cons k ks ih =>
    intro i stack ops halign hstack hbase
    have hilt : i < (ops.map Op.kind).length := by
      have hlen := congrArg List.length halign
      rw [List.length_drop, List.length_cons] at hlen
      omega
    have hdec := List.drop_eq_getElem_cons hilt
    rw [halign] at hdec
    have hhead : (ops.map Op.kind)[i] = k := by
      have := hdec
      injection this.symm
    have htail : (ops.map Op.kind).drop (i + 1) = ks := by
      injection hdec.symm
    have hki : (ops[i]?).map Op.kind = some k := by
      rw [← List.getElem?_map]
      rw [List.getElem?_eq_getElem hilt, hhead]
    cases k
    case OpJz =>
      rw [fixAux]
      apply ih (i + 1) (i :: stack) ops htail _ hbase
      intro s hs
      rcases List.mem_cons.mp hs with rfl | hs
      · exact hki
      · exact hstack s hs
    case OpJnz =>
      cases stack with
      | nil =>
        rw [fixAux]
        exact ih (i + 1) [] ops htail (fun s hs => by cases hs) hbase
      | cons start rest =>
        rw [fixAux]
        have hmk : (setArg (setArg ops start ((i : Int) + 1)) i (start : Int)).map Op.kind =
            ops.map Op.kind := by
          rw [setArg_map_kind, setArg_map_kind]
        apply ih (i + 1) rest _ (by rw [hmk]; exact htail)
        · intro s hs
          have h1 := setArg_kind_at (setArg ops start ((i : Int) + 1)) i (start : Int) s
          have h2 := setArg_kind_at ops start ((i : Int) + 1) s
          rw [h1, h2]
          exact hstack s (List.mem_cons_of_mem start hs)
        · apply setArg_normOk_preserve
          · right
            rw [setArg_kind_at]
            exact hki
          · apply setArg_normOk_preserve
            · left
              exact hstack start (List.mem_cons_self start rest)
            · exact hbase
    all_goals
      rw [fixAux_step_other _ _ _ _ _ (by simp) (by simp)]
    all_goals
      exact ih (i + 1) stack ops htail hstack hbase

/-- Bound on the truncated remainder by 256. -/
theorem tmod256_range (a : Int) : -255 ≤ a.tmod 256 ∧ a.tmod 256 ≤ 255 := by
  have hneg : (-a).tmod 256 = -(a.tmod 256) := by
    rw [Int.tmod_def, Int.tmod_def, Int.neg_tdiv]
    ring
  constructor
  · rcases Int.le_total 0 a with h | h
    · have := Int.tmod_nonneg 256 h
      omega
    · have h2 := Int.tmod_lt_of_pos (-a) (show (0 : Int) < 256 by norm_num)
      omega
  · rcases Int.le_total 0 a with h | h
    · have := Int.tmod_lt_of_pos a (show (0 : Int) < 256 by norm_num)
      omega
    · have h2 := Int.tmod_nonneg 256 (show (0 : Int) ≤ -a by omega)
      omega

/-- `normAdd` on an `Add` op truncates the argument. -/
theorem normAdd_of_add {o : Op} (h : o.kind = .OpAdd) :
    (normAdd o).arg = o.arg.tmod 256 := by
  unfold normAdd
  rw [if_pos (by simp [h])]

/-- Every op the no-op scan keeps satisfies the normalisation invariants. -/
theorem noOpScan_normOk (l : List Op) :
    ∀ (j : Nat) (o : Op), (noOpScan l)[j]? = some o → normOk o := by
  induction l with
  | nil =>
    intro j o hj
    rw [noOpScan, List.getElem?_nil] at hj
    cases hj
  | cons op rest ih =>
    intro j o hj
    rw [noOpScan] at hj
    by_cases hg : (((normAdd op).kind == OpKind.OpAdd ||
        (normAdd op).kind == OpKind.OpShift) && (normAdd op).arg == 0) = true
    · rw [if_pos hg] at hj
      exact ih j o hj
    · rw [if_neg hg] at hj
      simp only [Bool.and_eq_true, Bool.or_eq_true, beq_iff_eq, not_and, not_or] at hg
      cases j with
      | zero =>
        rw [List.getElem?_cons_zero] at hj
        cases hj
        constructor
        · intro hka
          have hopk : op.kind = .OpAdd := by rw [← normAdd_kind op]; exact hka
          have harg : (normAdd op).arg = op.arg.tmod 256 := normAdd_of_add hopk
          have hnz : ¬((normAdd op).arg = 0) := hg (Or.inl hka)
          have hr := tmod256_range op.arg
          rw [harg] at hnz ⊢
          exact ⟨hnz, hr.1, hr.2⟩
        · intro hks
          exact hg (Or.inr hks)
      | succ j =>
        rw [List.getElem?_cons_succ] at hj
        exact ih j o hj

/-- Every op `removeNoOps` returns satisfies the normalisation invariants:
the scan establishes them and the jump-target repair only rewrites `Jz`/`Jnz`
arguments. -/
theorem removeNoOps_normOk (x : List Op) :
    ∀ (j : Nat) (o : Op), (removeNoOps x)[j]? = some o → normOk o := by
  unfold removeNoOps fixJumpTargets
  exact fixAux_normOk _ 0 [] (noOpScan x) (by rw [List.drop_zero])
    (fun s hs => by cases hs) (noOpScan_normOk x)

/-- A `Jz` kind directly followed by a `Jnz` kind is matched by the walk as
a pair of neighbours. -/
theorem walkPairsAux_adj (i : Nat) (ks : List OpKind) (stack : List Nat) :
    ∀ ps, walkPairsAux i ks stack = some ps →
      ∀ j, ks[j]? = some .OpJz → ks[j + 1]? = some .OpJnz → (i + j, i + j + 1) ∈ ps := by
  induction i, ks, stack using walkPairsAux.induct with
  | case1 i =>
    intro ps h j hj1 hj2
    rw [List.getElem?_nil] at hj1
    cases hj1
  | case2 i s rest =>
    intro ps h j hj1 hj2
    rw [walkPairsAux] at h
    cases h
  | case3 i ks stack ih =>
    intro ps h j hj1 hj2
    rw [walkPairsAux] at h
    cases j with
    | zero =>
      rw [List.getElem?_cons_succ] at hj2
      cases ks with
      | nil =>
        rw [List.getElem?_nil] at hj2
        cases hj2
      | cons k2 ks2 =>
        rw [List.getElem?_cons_zero] at hj2
        cases hj2
        rw [walkPairsAux] at h
        rcases Option.map_eq_some'.mp h with ⟨ps', _, rfl⟩
        exact List.mem_cons_self _ _
    | succ j =>
      rw [List.getElem?_cons_succ] at hj1 hj2
      have := ih ps h j hj1 hj2
      have heq : i + 1 + j = i + (j + 1) := by omega
      rw [heq] at this
      exact this
  | case4 i ks start rest ih =>
    intro ps h j hj1 hj2
    rw [walkPairsAux] at h
    rcases Option.map_eq_some'.mp h with ⟨ps', hps', rfl⟩
    cases j with
    | zero =>
      rw [List.getElem?_cons_zero] at hj1
      cases hj1
    | succ j =>
      rw [List.getElem?_cons_succ] at hj1 hj2
      have := ih ps' hps' j hj1 hj2
      have heq : i + 1 + j = i + (j + 1) := by omega
      rw [heq] at this
      exact List.mem_cons_of_mem _ this
  | case5 i ks =>
    intro ps h j hj1 hj2
    rw [walkPairsAux] at h
    cases h
  | case6 i k ks stack hk1 hk2 hk3 ih =>
    intro ps h j hj1 hj2
    rw [walkPairsAux_step_other i k ks stack hk1 (not_jnz_of_stack_contra hk2 hk3)] at h
    cases j with
    | zero =>
      rw [List.getElem?_cons_zero] at hj1
      cases hj1
      exact (hk1 rfl).elim
    | succ j =>
      rw [List.getElem?_cons_succ] at hj1 hj2
      have := ih ps h j hj1 hj2
      have heq : i + 1 + j = i + (j + 1) := by omega
      rw [heq] at this
      exact this

/-- Under the jump-pair invariant, a `Jz` directly followed by a `Jnz` is a
matched empty-loop window. -/
theorem inv_adjacent_emptyCond {ops : List Op} (hinv : jumpPairInv ops = true) {j : Nat}
    (h1 : (ops.map Op.kind)[j]? = some .OpJz)
    (h2 : (ops.map Op.kind)[j + 1]? = some .OpJnz) : emptyCond ops j = true := by
  obtain ⟨ps, hw⟩ := jumpPairInv_walkPairs hinv
  have hw' : walkPairsAux 0 (ops.map Op.kind) [] = some ps := hw
  have hmem : (0 + j, 0 + j + 1) ∈ ps := walkPairsAux_adj 0 _ [] ps hw' j h1 h2
  unfold jumpPairInv at hinv
  rw [hw] at hinv
  have hall := List.all_eq_true.mp hinv _ hmem
  simp only [Bool.and_eq_true, beq_iff_eq] at hall
  rw [List.getElem?_map] at h1 h2
  rcases Option.map_eq_some'.mp h1 with ⟨a, ha, hak⟩
  rcases Option.map_eq_some'.mp h2 with ⟨b, hb, hbk⟩
  have haarg : a.arg = (j : Int) + 2 := by
    have := hall.1
    simp only [Nat.zero_add] at this
    rw [ha] at this
    simp only [Option.map_some', Option.some.injEq] at this
    rw [this]
    push_cast
    ring
  have hbarg : b.arg = (j : Int) := by
    have := hall.2
    simp only [Nat.zero_add] at this
    rw [hb] at this
    simp only [Option.map_some', Option.some.injEq] at this
    exact this
  exact emptyCond_intro ha hb hak hbk haarg hbarg

/-- `clearLoops` never lengthens the stream. -/
theorem clearLoops_length_le (x : List Op) : (clearLoops x).length ≤ x.length := by
  unfold clearLoops
  by_cases h : x.length < 3
  · rw [if_pos h]
  · rw [if_neg h, fixJumpTargets_length]
    have := clearScanF_length_le x.length x 0
    omega

/-- `removeEmptyLoops` never lengthens the stream. -/
theorem removeEmptyLoops_length_le (x : List Op) :
    (removeEmptyLoops x).length ≤ x.length := by
  unfold removeEmptyLoops
  by_cases h : x.length < 2
  · rw [if_pos h]
  · rw [if_neg h, fixJumpTargets_length]
    have := emptyScanF_length_le x.length x 0
    omega

/-- `mergeAdjacent` never lengthens the stream. -/
theorem mergeAdjacent_length_le (x : List Op) :
    (mergeAdjacent x).length ≤ x.length := by
  unfold mergeAdjacent
  by_cases h : x.length < 2
  · rw [if_pos h]
  · rw [if_neg h, fixJumpTargets_length]
    have := mergeAux_length_le x []
    simp only [List.length_nil] at this
    omega

/-- `removeNoOps` never lengthens the stream. -/
theorem removeNoOps_length_le (x : List Op) : (removeNoOps x).length ≤ x.length := by
  unfold removeNoOps
  rw [fixJumpTargets_length]
  exact noOpScan_length_le x

/-- One round of passes never lengthens the stream. -/
theorem optPasses_length_le (x : List Op) : (optPasses x).length ≤ x.length := by
  unfold optPasses
  calc (removeNoOps (mergeAdjacent (removeEmptyLoops (clearLoops x)))).length
      ≤ (mergeAdjacent (removeEmptyLoops (clearLoops x))).length :=
        removeNoOps_length_le _
    _ ≤ (removeEmptyLoops (clearLoops x)).length := mergeAdjacent_length_le _
    _ ≤ (clearLoops x).length := removeEmptyLoops_length_le _
    _ ≤ x.length := clearLoops_length_le _

/-- A window whose second slot is past the end is no empty-loop window. -/
theorem emptyCond_oob2 {ops : List Op} {j : Nat} (h : ops.length ≤ j + 1) :
    emptyCond ops j = false := by
  unfold emptyCond
  rw [List.getElem?_eq_none h]
  cases ops[j]? <;> rfl

/-- A length-preserving `clearLoops` preserves the kind sequence. -/
theorem clearLoops_kind_of_len {x : List Op} (h : (clearLoops x).length = x.length) :
    (clearLoops x).map Op.kind = x.map Op.kind := by
  unfold clearLoops at h ⊢
  by_cases hc : x.length < 3
  · rw [if_pos hc]
  · rw [if_neg hc] at h ⊢
    rw [fixJumpTargets_length] at h
    have hcopy := clearScanF_copy x.length x 0 (by omega) (by omega)
    rw [fixJumpTargets_map_kind, hcopy, List.drop_zero]

/-- A length-preserving `removeEmptyLoops` preserves the kind sequence. -/
theorem removeEmptyLoops_kind_of_len {x : List Op}
    (h : (removeEmptyLoops x).length = x.length) :
    (removeEmptyLoops x).map Op.kind = x.map Op.kind := by
  unfold removeEmptyLoops at h ⊢
  by_cases hc : x.length < 2
  · rw [if_pos hc]
  · rw [if_neg hc] at h ⊢
    rw [fixJumpTargets_length] at h
    have hcopy := emptyScanF_copy x.length x 0 (by omega) (by omega)
    rw [fixJumpTargets_map_kind, hcopy, List.drop_zero]

/-- A length-preserving `removeEmptyLoops` found no empty-loop window at all. -/
theorem removeEmptyLoops_nofire_of_len {x : List Op}
    (h : (removeEmptyLoops x).length = x.length) :
    ∀ j, emptyCond x j = false := by
  intro j
  unfold removeEmptyLoops at h
  by_cases hc : x.length < 2
  · exact emptyCond_oob2 (by omega)
  · rw [if_neg hc, fixJumpTargets_length] at h
    exact emptyScanF_nofire x.length x 0 (by omega) (by omega) j (Nat.zero_le j)

/-- A length-preserving `mergeAdjacent` preserves the kind sequence. -/
theorem mergeAdjacent_kind_of_len {x : List Op}
    (h : (mergeAdjacent x).length = x.length) :
    (mergeAdjacent x).map Op.kind = x.map Op.kind := by
  unfold mergeAdjacent at h ⊢
  by_cases hc : x.length < 2
  · rw [if_pos hc]
  · rw [if_neg hc] at h ⊢
    rw [fixJumpTargets_length] at h
    have hcopy := mergeAux_copy x [] (by simp only [List.length_nil]; omega)
    rw [fixJumpTargets_map_kind, hcopy, List.reverse_nil, List.nil_append]

/-- A length-preserving `removeNoOps` preserves the kind sequence. -/
theorem removeNoOps_kind_of_len {x : List Op}
    (h : (removeNoOps x).length = x.length) :
    (removeNoOps x).map Op.kind = x.map Op.kind := by
  unfold removeNoOps at h ⊢
  rw [fixJumpTargets_length] at h
  have hcopy := noOpScan_copy x h
  rw [fixJumpTargets_map_kind, hcopy, List.map_map]
  exact List.map_congr_left fun o _ => normAdd_kind o

/-- The final round of the fixed-point loop: a round that keeps the length
leaves no matched empty loop, because `removeEmptyLoops` fired on nothing
and no later pass of that round changes the kind sequence. -/
theorem optPasses_final {r : List Op} (hinv : jumpPairInv r = true)
    (hlen : (optPasses r).length = r.length) :
    noMatchedEmptyLoop (optPasses r) = true := by
  have hop : optPasses r
      = removeNoOps (mergeAdjacent (removeEmptyLoops (clearLoops r))) := rfl
  have h1 := clearLoops_length_le r
  have h2 := removeEmptyLoops_length_le (clearLoops r)
  have h3 := mergeAdjacent_length_le (removeEmptyLoops (clearLoops r))
  have h4 := removeNoOps_length_le (mergeAdjacent (removeEmptyLoops (clearLoops r)))
  rw [hop] at hlen
  have e2 : (removeEmptyLoops (clearLoops r)).length = (clearLoops r).length := by
    omega
  have e3 : (mergeAdjacent (removeEmptyLoops (clearLoops r))).length
      = (removeEmptyLoops (clearLoops r)).length := by omega
  have e4 : (removeNoOps (mergeAdjacent (removeEmptyLoops (clearLoops r)))).length
      = (mergeAdjacent (removeEmptyLoops (clearLoops r))).length := by omega
  have hkinds : (optPasses r).map Op.kind = (clearLoops r).map Op.kind := by
    rw [hop, removeNoOps_kind_of_len e4, mergeAdjacent_kind_of_len e3,
      removeEmptyLoops_kind_of_len e2]
  have hnof := removeEmptyLoops_nofire_of_len e2
  have hinv1 : jumpPairInv (clearLoops r) = true := clearLoops_inv hinv
  unfold noMatchedEmptyLoop
  rw [List.all_eq_true]
  intro j hj
  cases hcond : emptyCond (optPasses r) j with
  | false => rfl
  | true =>
    obtain ⟨a, b, ha, hb, hak, hbk, _, _⟩ := emptyCond_spec hcond
    have hkj : ((optPasses r).map Op.kind)[j]? = some .OpJz := by
      rw [List.getElem?_map, ha, Option.map_some', hak]
    have hkj1 : ((optPasses r).map Op.kind)[j + 1]? = some .OpJnz := by
      rw [List.getElem?_map, hb, Option.map_some', hbk]
    rw [hkinds] at hkj hkj1
    have hcond1 : emptyCond (clearLoops r) j = true :=
      inv_adjacent_emptyCond hinv1 hkj hkj1
    rw [hnof j] at hcond1
    cases hcond1

/-- With enough fuel the fixed-point loop always exits through its final
round, so its result keeps the jump-pair invariant, satisfies the per-op
normalisation facts, and holds no matched empty loop. -/
theorem optimiseLoop_final :
    ∀ (fuel : Nat) (r : List Op), r.length < fuel → jumpPairInv r = true →
      jumpPairInv (optimiseLoop fuel r) = true ∧
      (∀ (j : Nat) (o : Op), (optimiseLoop fuel r)[j]? = some o → normOk o) ∧
      noMatchedEmptyLoop (optimiseLoop fuel r) = true := by
  intro fuel
  induction fuel with
  | zero =>
    intro r hf
    omega
  | succ fuel ih =>
    intro r hf hinv
    rw [optimiseLoop]
    by_cases hc : (optPasses r).length = r.length
    · rw [if_pos hc]
      exact ⟨optPasses_inv hinv, removeNoOps_normOk _, optPasses_final hinv hc⟩
    · rw [if_neg hc]
      have hle := optPasses_length_le r
      exact ih (optPasses r) (by omega) (optPasses_inv hinv)

/-- C1 (amended): for every IR stream satisfying the jump-pair invariant,
`Optimise` returns a stream that still satisfies the jump-pair invariant and
whose ops satisfy the normalisation facts — no `Add 0`, every `Add` argument
within `-255..255`, no `Shift 0` — and that holds no matched empty loop
(`Jz` immediately followed by its matching `Jnz`).  The claim's further
clause that no matched three-op `Jz, Add ±1, Jnz` clear loop remains is
dropped: the final `removeNoOps` round can create one by normalising an
`Add` argument modulo 256 after `clearLoops` has already run. -/
theorem c1_optimise_invariants (ops : List Op) (hinv : jumpPairInv ops = true) :
    jumpPairInv (Optimise ops) = true ∧
    (∀ o ∈ Optimise ops, normOk o) ∧
    noMatchedEmptyLoop (Optimise ops) = true := by
  unfold Optimise
  by_cases h0 : ops.length = 0
  · rw [if_pos h0]
    have hnil : ops = [] := List.length_eq_zero.mp h0
    subst hnil
    refine ⟨hinv, ?_, by decide⟩
    intro o ho
    cases ho
  · rw [if_neg h0]
    obtain ⟨ha, hb, hc⟩ :=
      optimiseLoop_final (ops.length + 1) ops (Nat.lt_succ_self _) hinv
    refine ⟨ha, ?_, hc⟩
    intro o ho
    obtain ⟨j, hj⟩ := List.mem_iff_getElem?.mp ho
    exact hb j o hj

/-- Under the jump-pair invariant every bracket op's argument is
non-negative: the walk matches each `Jz`/`Jnz` index into a pair, and the
invariant pins the argument to a pair index (plus one), a natural number. -/
theorem inv_bracket_arg {ops : List Op} (hinv : jumpPairInv ops = true) :
    ∀ (j : Nat) (o : Op), ops[j]? = some o →
      (o.kind = .OpJz ∨ o.kind = .OpJnz) → 0 ≤ o.arg := by
  obtain ⟨ps, hw⟩ := jumpPairInv_walkPairs hinv
  unfold jumpPairInv at hinv
  rw [hw] at hinv
  have hall := List.all_eq_true.mp hinv
  have hcov := (walkPairsAux_coverage 0 (ops.map Op.kind) [] ps hw).2
  intro j o hj hk
  have hkj : (ops.map Op.kind)[j]? = some o.kind := by
    rw [List.getElem?_map, hj, Option.map_some']
  rcases hk with hk | hk
  · obtain ⟨p, hp, hp1⟩ := (hcov j o.kind hkj).1 hk
    simp only [Nat.zero_add] at hp1
    have harg := hall p hp
    simp only [Bool.and_eq_true, beq_iff_eq] at harg
    have h1 := harg.1
    rw [hp1, hj] at h1
    simp only [Option.map_some', Option.some.injEq] at h1
    rw [h1]
    omega
  · obtain ⟨p, hp, hp2⟩ := (hcov j o.kind hkj).2 hk
    simp only [Nat.zero_add] at hp2
    have harg := hall p hp
    simp only [Bool.and_eq_true, beq_iff_eq] at harg
    have h2 := harg.2
    rw [hp2, hj] at h2
    simp only [Option.map_some', Option.some.injEq] at h2
    rw [h2]
    omega

/-- With the state invariant, one interpreter iteration never panics: the
fetch index and every tape access are in range. -/
theorem step_no_crash {cfg : VMConfig} {ops : List Op} {st : VMState}
    (hg : vmGood cfg st) : step cfg ops st ≠ StepResult.crash := by
  obtain ⟨hlen, hdp0, hdp1, hpc⟩ := hg
  by_cases hlt : st.pc < (ops.length : Int)
  case neg =>
    rw [step, if_neg hlt]
    intro h
    cases h
  case pos =>
    have hfl : st.pc.toNat < ops.length := by omega
    have hfetch : ops[st.pc.toNat]? = some ops[st.pc.toNat] :=
      List.getElem?_eq_getElem hfl
    rw [step_dispatch cfg ops st _ hpc hfetch]
    have hdl : st.dp < (st.memory.length : Int) := by rw [hlen]; exact hdp1
    obtain ⟨c, hc⟩ := memRead_isSome hdp0 hdl
    have hwv : ∀ v, memWrite st.memory st.dp v = some (st.memory.set st.dp.toNat v) :=
      fun v => memWrite_isSome v hdp0 hdl
    cases hk : (ops[st.pc.toNat]).kind
    case OpShift =>
      dsimp only
      split <;> (intro h; cases h)
    case OpAdd => simp [hc, hwv]
    case OpZero => simp [hwv]
    case OpIn =>
      cases hi : st.inp with
      | nil => cases he : cfg.eofBehavior <;> simp [hwv]
      | cons b rest => simp [hwv]
    case OpOut => simp [hc]
    case OpJz =>
      simp only [hc]
      split <;> (intro h; cases h)
    case OpJnz =>
      simp only [hc]
      split <;> (intro h; cases h)

/-- With the state invariant and non-negative bracket arguments, a stepping
iteration re-establishes the state invariant. -/
theorem step_preserves_good {cfg : VMConfig} {ops : List Op} {st : VMState}
    (hg : vmGood cfg st)
    (hbr : ∀ (j : Nat) (o : Op), ops[j]? = some o →
      (o.kind = .OpJz ∨ o.kind = .OpJnz) → 0 ≤ o.arg) :
    ∀ st1, step cfg ops st = StepResult.next st1 → vmGood cfg st1 := by
  obtain ⟨hlen, hdp0, hdp1, hpc⟩ := hg
  intro st1 hstep
  by_cases hlt : st.pc < (ops.length : Int)
  case neg =>
    rw [step, if_neg hlt] at hstep
    cases hstep
  case pos =>
    have hfl : st.pc.toNat < ops.length := by omega
    have hfetch : ops[st.pc.toNat]? = some ops[st.pc.toNat] :=
      List.getElem?_eq_getElem hfl
    rw [step_dispatch cfg ops st _ hpc hfetch] at hstep
    have hdl : st.dp < (st.memory.length : Int) := by rw [hlen]; exact hdp1
    obtain ⟨c, hc⟩ := memRead_isSome hdp0 hdl
    have hwv : ∀ v, memWrite st.memory st.dp v = some (st.memory.set st.dp.toNat v) :=
      fun v => memWrite_isSome v hdp0 hdl
    cases hk : (ops[st.pc.toNat]).kind
    case OpShift =>
      rw [hk] at hstep
      dsimp only at hstep
      split at hstep
      · cases hstep
      · rename_i hcond
        cases hstep
        exact ⟨hlen, by dsimp only; omega, by dsimp only; omega, by dsimp only; omega⟩
    case OpAdd =>
      rw [hk] at hstep
      simp only [hc, hwv] at hstep
      cases hstep
      refine ⟨?_, hdp0, hdp1, by dsimp only; omega⟩
      dsimp only
      rw [List.length_set]
      exact hlen
    case OpZero =>
      rw [hk] at hstep
      simp only [hwv] at hstep
      cases hstep
      refine ⟨?_, hdp0, hdp1, by dsimp only; omega⟩
      dsimp only
      rw [List.length_set]
      exact hlen
    case OpIn =>
      rw [hk] at hstep
      cases hi : st.inp with
      | nil =>
        rw [hi] at hstep
        cases he : cfg.eofBehavior <;> rw [he] at hstep <;>
          simp only [hwv] at hstep <;> cases hstep
        · refine ⟨?_, hdp0, hdp1, by dsimp only; omega⟩
          dsimp only
          rw [List.length_set]
          exact hlen
        · refine ⟨?_, hdp0, hdp1, by dsimp only; omega⟩
          dsimp only
          rw [List.length_set]
          exact hlen
        · exact ⟨hlen, hdp0, hdp1, by dsimp only; omega⟩
      | cons b rest =>
        rw [hi] at hstep
        simp only [hwv] at hstep
        cases hstep
        refine ⟨?_, hdp0, hdp1, by dsimp only; omega⟩
        dsimp only
        rw [List.length_set]
        exact hlen
    case OpOut =>
      rw [hk] at hstep
      simp only [hc] at hstep
      cases hstep
      exact ⟨hlen, hdp0, hdp1, by dsimp only; omega⟩
    case OpJz =>
      rw [hk] at hstep
      simp only [hc] at hstep
      split at hstep <;> cases hstep
      · have harg := hbr st.pc.toNat (ops[st.pc.toNat]) hfetch (Or.inl hk)
        exact ⟨hlen, hdp0, hdp1, by dsimp only; omega⟩
      · exact ⟨hlen, hdp0, hdp1, by dsimp only; omega⟩
    case OpJnz =>
      rw [hk] at hstep
      simp only [hc] at hstep
      split at hstep <;> cases hstep
      · have harg := hbr st.pc.toNat (ops[st.pc.toNat]) hfetch (Or.inr hk)
        exact ⟨hlen, hdp0, hdp1, by dsimp only; omega⟩
      · exact ⟨hlen, hdp0, hdp1, by dsimp only; omega⟩

/-- From any state satisfying the invariant, a run with non-negative bracket
arguments never panics, for any fuel. -/
theorem run_no_crash_of_good (cfg : VMConfig) (ops : List Op)
    (hbr : ∀ (j : Nat) (o : Op), ops[j]? = some o →
      (o.kind = .OpJz ∨ o.kind = .OpJnz) → 0 ≤ o.arg) :
    ∀ (fuel : Nat) (st : VMState), vmGood cfg st →
      Run cfg ops fuel st ≠ RunResult.crashed := by
  intro fuel
  induction fuel with
  | zero =>
    intro st hg
    rw [Run]
    intro h
    cases h
  | succ fuel ih =>
    intro st hg
    cases hstep : step cfg ops st with
    | halt st1 =>
      simp only [Run, hstep]
      intro h
      cases h
    | fail e st1 =>
      simp only [Run, hstep]
      intro h
      cases h
    | crash => exact absurd hstep (step_no_crash hg)
    | next st1 =>
      simp only [Run, hstep]
      exact ih st1 (step_preserves_good hg hbr st1 hstep)

/-- The initial interpreter state satisfies the state invariant as soon as
the tape is non-empty. -/
theorem initState_good (cfg : VMConfig) (input : List Nat) (hmem : 1 ≤ cfg.memSize) :
    vmGood cfg (initState cfg input) := by
  refine ⟨by simp [initState], le_refl 0, ?_, le_refl 0⟩
  show (0 : Int) < (cfg.memSize : Int)
  omega

/-- Witness for C1 at the two-op stream `Jz 2, Jnz 0`. -/
theorem c1_optimise_invariants_witness :
    jumpPairInv [(⟨.OpJz, 2, none⟩ : Op), ⟨.OpJnz, 0, none⟩] = true ∧
    (jumpPairInv (Optimise [(⟨.OpJz, 2, none⟩ : Op), ⟨.OpJnz, 0, none⟩]) = true ∧
      (∀ o ∈ Optimise [(⟨.OpJz, 2, none⟩ : Op), ⟨.OpJnz, 0, none⟩], normOk o) ∧
      noMatchedEmptyLoop
        (Optimise [(⟨.OpJz, 2, none⟩ : Op), ⟨.OpJnz, 0, none⟩]) = true) :=
  ⟨by decide, c1_optimise_invariants _ (by decide)⟩

/-- C9: on an IR stream satisfying the jump-pair invariant and a
configuration with at least one tape cell, the interpreter never panics —
every tape access happens with the data pointer inside the tape and every
fetch with a non-negative program counter — so `VM.Run` always returns
normally (here: never `.crashed`), for any number of observed iterations. -/
theorem c9_run_never_crashes (cfg : VMConfig) (ops : List Op) (input : List Nat)
    (fuel : Nat) (hinv : jumpPairInv ops = true) (hmem : 1 ≤ cfg.memSize) :
    Run cfg ops fuel (initState cfg input) ≠ RunResult.crashed :=
  run_no_crash_of_good cfg ops (inv_bracket_arg hinv) fuel _
    (initState_good cfg input hmem)

/-- The four-byte rel32 encodings all have length four. -/
theorem le32i_length (v : Int) : (le32i v).length = 4 := rfl

/-- The lower bound of a fix-up chain bounds the code length. -/
theorem chainFrom_le : ∀ (fs : List Fixup) (lo n : Nat), chainFrom lo fs n → lo ≤ n := by
  intro fs
  induction fs with
  | nil =>
    intro lo n h
    exact h
  | cons f fs ih =>
    intro lo n h
    have := ih (f.offset + 4) n h.2
    have h1 := h.1
    omega

/-- A fix-up chain survives growing the code buffer. -/
theorem chainFrom_mono : ∀ (fs : List Fixup) {lo n n' : Nat},
    chainFrom lo fs n → n ≤ n' → chainFrom lo fs n' := by
  intro fs
  induction fs with
  | nil =>
    intro lo n n' h hn
    exact le_trans h hn
  | cons f fs ih =>
    intro lo n n' h hn
    exact ⟨h.1, ih h.2 hn⟩

/-- Appending a fix-up past the current code end extends the chain. -/
theorem chainFrom_snoc : ∀ (fs : List Fixup) {lo n : Nat} (o : Nat) (t : Int),
    chainFrom lo fs n → n ≤ o → chainFrom lo (fs ++ [⟨o, t⟩]) (o + 4) := by
  intro fs
  induction fs with
  | nil =>
    intro lo n o t h hno
    exact ⟨le_trans h hno, le_refl _⟩
  | cons f fs ih =>
    intro lo n o t h hno
    exact ⟨h.1, ih o t h.2 hno⟩

/-- Every fix-up of a chain has its four-byte region inside the buffer and
past the lower bound. -/
theorem chainFrom_bound : ∀ (fs : List Fixup) (lo n : Nat), chainFrom lo fs n →
    ∀ f ∈ fs, lo ≤ f.offset ∧ f.offset + 4 ≤ n := by
  intro fs
  induction fs with
  | nil =>
    intro lo n h f hf
    cases hf
  | cons g fs ih =>
    intro lo n h f hf
    cases hf with
    | head => exact ⟨h.1, chainFrom_le fs _ _ h.2⟩
    | tail _ hf =>
      have := ih _ _ h.2 f hf
      have h1 := h.1
      exact ⟨by omega, this.2⟩

/-- An in-bounds patch succeeds with the spliced buffer. -/
theorem patchLE32_some {code : List Nat} {off : Nat} (v : Int)
    (h : off + 4 ≤ code.length) :
    patchLE32 code off v = some (code.take off ++ le32i v ++ code.drop (off + 4)) := by
  unfold patchLE32
  rw [if_pos h]

/-- An in-bounds patch keeps the buffer length. -/
theorem patched_length {code : List Nat} {off : Nat} (v : Int)
    (h : off + 4 ≤ code.length) :
    (code.take off ++ le32i v ++ code.drop (off + 4)).length = code.length := by
  simp only [List.length_append, List.length_take, List.length_drop, le32i_length]
  omega

/-- Reading inside the patched region yields the written encoding. -/
theorem patched_getElem?_in {code : List Nat} {off : Nat} (v : Int) {k : Nat}
    (h : off + 4 ≤ code.length) (hk : k < 4) :
    (code.take off ++ le32i v ++ code.drop (off + 4))[off + k]? = (le32i v)[k]? := by
  have hto : (code.take off).length = off := by
    rw [List.length_take]
    omega
  have hlen1 : (code.take off ++ le32i v).length = off + 4 := by
    rw [List.length_append, hto, le32i_length]
  rw [List.getElem?_append_left (by omega : off + k < (code.take off ++ le32i v).length),
    List.getElem?_append_right (by omega : (code.take off).length ≤ off + k), hto]
  congr 1
  omega

/-- Reading outside the patched region yields the original byte. -/
theorem patched_getElem?_out {code : List Nat} {off : Nat} (v : Int) {j : Nat}
    (h : off + 4 ≤ code.length) (hj : j < off ∨ off + 4 ≤ j) :
    (code.take off ++ le32i v ++ code.drop (off + 4))[j]? = code[j]? := by
  have hto : (code.take off).length = off := by
    rw [List.length_take]
    omega
  have hlen1 : (code.take off ++ le32i v).length = off + 4 := by
    rw [List.length_append, hto, le32i_length]
  rcases hj with hj | hj
  · rw [List.getElem?_append_left (by omega : j < (code.take off ++ le32i v).length),
      List.getElem?_append_left (by omega : j < (code.take off).length),
      List.getElem?_take, if_pos hj]
  · rw [List.getElem?_append_right (by omega : (code.take off ++ le32i v).length ≤ j),
      hlen1, List.getElem?_drop]
    congr 1
    omega

/-- `resolveFixups` on a chained fix-up list succeeds, keeps the length,
writes each fix-up's rel32 at its offset, and leaves other bytes alone. -/
theorem resolveFixups_spec (la : List (Int × Nat)) (ro wo : Nat) :
    ∀ (fs : List Fixup) (lo : Nat) (code : List Nat), chainFrom lo fs code.length →
      ∃ code1, resolveFixups fs la ro wo code = some code1 ∧
        code1.length = code.length ∧
        (∀ f ∈ fs, ∀ k, k < 4 → code1[f.offset + k]? =
          (le32i ((fixTarget la ro wo f : Int) - ((f.offset : Int) + 4)))[k]?) ∧
        (∀ j : Nat, (∀ f ∈ fs, j < f.offset ∨ f.offset + 4 ≤ j) →
          code1[j]? = code[j]?) := by
  intro fs
  induction fs with
  | nil =>
    intro lo code h
    exact ⟨code, rfl, rfl, fun f hf => absurd hf (List.not_mem_nil f), fun j _ => rfl⟩
  | cons f fs ih =>
    intro lo code h
    have hb : f.offset + 4 ≤ code.length := chainFrom_le fs (f.offset + 4) code.length h.2
    have hpatch := patchLE32_some ((fixTarget la ro wo f : Int) - ((f.offset : Int) + 4)) hb
    have hmidlen := patched_length ((fixTarget la ro wo f : Int) - ((f.offset : Int) + 4)) hb
    have hchain2 : chainFrom (f.offset + 4) fs
        (code.take f.offset ++
          le32i ((fixTarget la ro wo f : Int) - ((f.offset : Int) + 4)) ++
          code.drop (f.offset + 4)).length := by
      rw [hmidlen]
      exact h.2
    obtain ⟨code2, hres, hlen2, hpat2, hfr2⟩ := ih (f.offset + 4) _ hchain2
    refine ⟨code2, ?_, hlen2.trans hmidlen, ?_, ?_⟩
    · rw [resolveFixups]
      unfold fixTarget at hpatch
      rw [hpatch]
      exact hres
    · intro g hg k hk
      cases hg with
      | head =>
        have hstep : code2[f.offset + k]? =
            (code.take f.offset ++
              le32i ((fixTarget la ro wo f : Int) - ((f.offset : Int) + 4)) ++
              code.drop (f.offset + 4))[f.offset + k]? := by
          apply hfr2
          intro f' hf'
          have := chainFrom_bound fs (f.offset + 4) code.length h.2 f' hf'
          exact Or.inl (by omega)
        rw [hstep]
        exact patched_getElem?_in _ hb hk
      | tail _ hg => exact hpat2 g hg k hk
    · intro j hjav
      have hstep := hfr2 j (fun f' hf' => hjav f' (List.mem_cons_of_mem f hf'))
      rw [hstep]
      exact patched_getElem?_out _ hb (hjav f (List.mem_cons_self f fs))

/-- Emitting one op preserves the fix-up chain: new fix-ups sit past the old
code end with their patch region inside the op's own bytes. -/
theorem emitOp_chain {lo : Nat} (st : GenState) (op : Op)
    (h : chainFrom lo st.fixups st.code.length) :
    chainFrom lo (emitOp st op).fixups (emitOp st op).code.length := by
  unfold emitOp
  cases op.kind
  case OpShift =>
    dsimp only
    split
    · exact h
    · split <;>
        exact chainFrom_mono _ h (by rw [List.length_append]; omega)
  case OpAdd =>
    dsimp only
    split
    · exact h
    · split <;>
        exact chainFrom_mono _ h (by rw [List.length_append]; omega)
  case OpZero =>
    dsimp only
    exact chainFrom_mono _ h (by rw [List.length_append]; omega)
  case OpIn =>
    dsimp only
    refine chainFrom_mono _ (chainFrom_snoc st.fixups (st.code.length + 1) (-1) h (by omega)) ?_
    have h5 : (st.code ++ CallRel32 0).length = st.code.length + 5 := by
      rw [List.length_append]
      rfl
    omega
  case OpOut =>
    dsimp only
    refine chainFrom_mono _ (chainFrom_snoc st.fixups (st.code.length + 1) (-2) h (by omega)) ?_
    have h5 : (st.code ++ CallRel32 0).length = st.code.length + 5 := by
      rw [List.length_append]
      rfl
    omega
  case OpJz =>
    dsimp only
    refine chainFrom_mono _
      (chainFrom_snoc st.fixups ((st.code ++ TestbMem).length + 2) op.arg h
        (by rw [List.length_append]; omega)) ?_
    have h6 : (st.code ++ TestbMem ++ JzRel32 0).length = (st.code ++ TestbMem).length + 6 := by
      rw [List.length_append]
      rfl
    omega
  case OpJnz =>
    dsimp only
    refine chainFrom_mono _
      (chainFrom_snoc st.fixups ((st.code ++ TestbMem).length + 2) op.arg h
        (by rw [List.length_append]; omega)) ?_
    have h6 : (st.code ++ TestbMem ++ JnzRel32 0).length = (st.code ++ TestbMem).length + 6 := by
      rw [List.length_append]
      rfl
    omega

/-- The body-emission loop preserves the fix-up chain. -/
theorem emitBodyAux_chain (targets : List Int) :
    ∀ (l : List Op) (i : Nat) (st : GenState) (lo : Nat),
      chainFrom lo st.fixups st.code.length →
      chainFrom lo (emitBodyAux targets l i st).fixups
        (emitBodyAux targets l i st).code.length := by
  intro l
  induction l with
  | nil =>
    intro i st lo h
    rw [emitBodyAux]
    exact h
  | cons op rest ih =>
    intro i st lo h
    rw [emitBodyAux]
    by_cases hm : ((i : Int)) ∈ targets
    · rw [if_pos hm]
      exact ih (i + 1) _ lo (emitOp_chain _ op h)
    · rw [if_neg hm]
      exact ih (i + 1) _ lo (emitOp_chain _ op h)

/-- The full emission phase yields a chained fix-up list inside the final
code buffer. -/
theorem emitAll_chain (ops : List Op) :
    chainFrom 0 (emitAll ops).1.fixups (emitAll ops).1.code.length := by
  unfold emitAll
  dsimp only
  have hbase : chainFrom 0 ([] : List Fixup) prologueCode.length := Nat.zero_le _
  have hbody := emitBodyAux_chain (collectTargets ops) ops 0 ⟨prologueCode, [], []⟩ 0 hbase
  by_cases hm : (((ops.length : Int))) ∈ collectTargets ops
  · rw [if_pos hm]
    dsimp only
    exact chainFrom_mono _ hbody
      (by rw [List.length_append, List.length_append, List.length_append]; omega)
  · rw [if_neg hm]
    exact chainFrom_mono _ hbody
      (by rw [List.length_append, List.length_append, List.length_append]; omega)

/-- Four consecutive bytes of a list, as an equation on `drop`/`take`. -/
theorem take4_eq_of_getElem? {l w : List Nat} {off : Nat} (hw : w.length = 4)
    (_hb : off + 4 ≤ l.length) (h : ∀ k, k < 4 → l[off + k]? = w[k]?) :
    (l.drop off).take 4 = w := by
  apply List.ext_getElem?
  intro n
  rw [List.getElem?_take]
  by_cases hn : n < 4
  · rw [if_pos hn, List.getElem?_drop]
    exact h n hn
  · rw [if_neg hn]
    symm
    exact List.getElem?_eq_none (by omega)

/-- `Build` on the code segment at `0x401000` and the 30000-byte BSS tape
at `0x600000` lays out header, two program headers, zero padding to the
4096-byte page and the code bytes. -/
theorem build_shape (code : List Nat) :
    Build 0x401000 [⟨0x401000, code, code.length, 5, false⟩,
        ⟨0x600000, [], 30000, 6, true⟩] =
      writeHeader 0x401000 2 ++
      buildPhdrs [⟨0x401000, code, code.length, 5, false⟩,
        ⟨0x600000, [], 30000, 6, true⟩] 4096 ++
      List.replicate 3920 0 ++ (code ++ []) := by
  unfold Build
  dsimp only
  rw [show ([(⟨0x401000, code, code.length, 5, false⟩ : Segment),
      ⟨0x600000, [], 30000, 6, true⟩] : List Segment).length = 2 from rfl]
  rw [show alignUp (64 + 2 * 56) 0x1000 = 4096 from rfl]
  rw [show (writeHeader 0x401000 2 ++
      buildPhdrs [(⟨0x401000, code, code.length, 5, false⟩ : Segment),
        ⟨0x600000, [], 30000, 6, true⟩] 4096).length = 176 from rfl]
  rfl

/-- Layout of the ELF image `Build` produces for the code segment at
`0x401000` and the 30000-byte BSS tape at `0x600000`: header fields, the two
program headers, the page padding and the trailing code bytes. -/
theorem build_layout (code elf : List Nat)
    (helf : elf = writeHeader 0x401000 2 ++
      buildPhdrs [⟨0x401000, code, code.length, 5, false⟩,
        ⟨0x600000, [], 30000, 6, true⟩] 4096 ++
      List.replicate 3920 0 ++ (code ++ [])) :
    elf.length = 4096 + code.length ∧
    elf.take 4 = [0x7F, 0x45, 0x4C, 0x46] ∧
    (elf.drop 24).take 8 = le64 0x401000 ∧
    (elf.drop 32).take 8 = le64 64 ∧
    (elf.drop 40).take 8 = le64 0 ∧
    (elf.drop 56).take 2 = le16 2 ∧
    (elf.drop 60).take 2 = le16 0 ∧
    (elf.drop 64).take 4 = le32 1 ∧
    (elf.drop 68).take 4 = le32 5 ∧
    (elf.drop 72).take 8 = le64 0x1000 ∧
    (elf.drop 80).take 8 = le64 0x401000 ∧
    (elf.drop 96).take 8 = le64 code.length ∧
    (elf.drop 120).take 4 = le32 1 ∧
    (elf.drop 124).take 4 = le32 6 ∧
    (elf.drop 128).take 8 = le64 0 ∧
    (elf.drop 136).take 8 = le64 0x600000 ∧
    (elf.drop 152).take 8 = le64 0 ∧
    (elf.drop 160).take 8 = le64 30000 ∧
    elf.drop 4096 = code := by
  subst helf
  have hh : (writeHeader 0x401000 2).length = 64 := rfl
  have hp : (buildPhdrs [⟨0x401000, code, code.length, 5, false⟩,
      ⟨0x600000, [], 30000, 6, true⟩] 4096).length = 112 := rfl
  have hPlen : (writeHeader 0x401000 2 ++
      buildPhdrs [⟨0x401000, code, code.length, 5, false⟩,
        ⟨0x600000, [], 30000, 6, true⟩] 4096 ++
      List.replicate 3920 0).length = 4096 := by
    rw [List.length_append, List.length_append, List.length_replicate, hh, hp]
  refine ⟨?_, rfl, rfl, rfl, rfl, rfl, rfl, rfl, rfl, rfl, rfl, rfl, rfl, rfl, rfl,
    rfl, rfl, rfl, ?_⟩
  · rw [List.length_append, hPlen, List.length_append, List.length_nil]
    omega
  · rw [List.drop_left' hPlen, List.append_nil]

/-- C8: the ELF image `GenerateELF` wraps the generated code in is a minimal
ELF64 executable: entry point `0x401000`, program headers at offset 64, no
section headers, two `PT_LOAD` program headers — the first `R|X` with file
offset `0x1000`, virtual address `0x401000` and file size the code length,
the second `R|W` with file size 0, memory size 30000 and virtual address
`0x600000` — and the code bytes start at file offset 4096 after zero
padding. -/
theorem c8_elf_layout (ops : List Op) :
    ∃ code elf, Generate ops = some code ∧ GenerateELF ops = some elf ∧
      elf.length = 4096 + code.length ∧
      elf.take 4 = [0x7F, 0x45, 0x4C, 0x46] ∧
      (elf.drop 24).take 8 = le64 0x401000 ∧
      (elf.drop 32).take 8 = le64 64 ∧
      (elf.drop 40).take 8 = le64 0 ∧
      (elf.drop 56).take 2 = le16 2 ∧
      (elf.drop 60).take 2 = le16 0 ∧
      (elf.drop 64).take 4 = le32 1 ∧
      (elf.drop 68).take 4 = le32 5 ∧
      (elf.drop 72).take 8 = le64 0x1000 ∧
      (elf.drop 80).take 8 = le64 0x401000 ∧
      (elf.drop 96).take 8 = le64 code.length ∧
      (elf.drop 120).take 4 = le32 1 ∧
      (elf.drop 124).take 4 = le32 6 ∧
      (elf.drop 128).take 8 = le64 0 ∧
      (elf.drop 136).take 8 = le64 0x600000 ∧
      (elf.drop 152).take 8 = le64 0 ∧
      (elf.drop 160).take 8 = le64 30000 ∧
      elf.drop 4096 = code := by
  obtain ⟨code1, hres, _, _, _⟩ :=
    resolveFixups_spec (emitAll ops).1.labelAddr (emitAll ops).2.1 (emitAll ops).2.2
      (emitAll ops).1.fixups 0 (emitAll ops).1.code (emitAll_chain ops)
  have hgen : Generate ops = some code1 := hres
  have helf : GenerateELF ops = some (writeHeader 0x401000 2 ++
      buildPhdrs [⟨0x401000, code1, code1.length, 5, false⟩,
        ⟨0x600000, [], 30000, 6, true⟩] 4096 ++
      List.replicate 3920 0 ++ (code1 ++ [])) := by
    unfold GenerateELF
    rw [hgen, Option.map_some', build_shape]
  exact ⟨code1, _, hgen, helf, build_layout code1 _ rfl⟩

/-- C7: `Generate` always resolves its fix-ups: emission leaves every
recorded fix-up with its four patch bytes inside the buffer, and the
resolution pass rewrites exactly those bytes to the little-endian signed
32-bit encoding of `target − (offset + 4)`, the target being the `_bf_read`
or `_bf_write` start offset for the `-1`/`-2` markers and the label-map
entry of the IR target index for jump fix-ups. -/
theorem c7_fixups_resolved (ops : List Op) :
    ∃ code, Generate ops = some code ∧
      code.length = (emitAll ops).1.code.length ∧
      ∀ f ∈ (emitAll ops).1.fixups,
        (code.drop f.offset).take 4 =
          le32i ((fixTarget (emitAll ops).1.labelAddr (emitAll ops).2.1
              (emitAll ops).2.2 f : Int) - ((f.offset : Int) + 4)) := by
  obtain ⟨code1, hres, hlen, hpat, _⟩ :=
    resolveFixups_spec (emitAll ops).1.labelAddr (emitAll ops).2.1 (emitAll ops).2.2
      (emitAll ops).1.fixups 0 (emitAll ops).1.code (emitAll_chain ops)
  refine ⟨code1, ?_, hlen, ?_⟩
  · show resolveFixups (emitAll ops).1.fixups (emitAll ops).1.labelAddr
      (emitAll ops).2.1 (emitAll ops).2.2 (emitAll ops).1.code = some code1
    exact hres
  · intro f hf
    have hbnd := (chainFrom_bound (emitAll ops).1.fixups 0 (emitAll ops).1.code.length
      (emitAll_chain ops) f hf).2
    exact take4_eq_of_getElem? (le32i_length _) (by omega) (hpat f hf)

/-- Reading back the cell just written. -/
theorem heapRead_write_self {h : List (List Op)} {i : Nat} {v : List Op}
    (hi : i < h.length) : heapRead (heapWrite h i v) i = v := by
  unfold heapRead heapWrite
  rw [List.getD_eq_getElem?_getD, List.getElem?_set_self hi]
  rfl

/-- Writing one cell leaves every other cell alone. -/
theorem heapRead_write_ne {h : List (List Op)} {i j : Nat} {v : List Op}
    (hne : i ≠ j) : heapRead (heapWrite h i v) j = heapRead h j := by
  unfold heapRead heapWrite
  rw [List.getD_eq_getElem?_getD, List.getD_eq_getElem?_getD, List.getElem?_set_ne hne]

/-- Allocation does not move existing cells. -/
theorem heapRead_append_lt {h : List (List Op)} {j : Nat} {v : List Op}
    (hj : j < h.length) : heapRead (h ++ [v]) j = heapRead h j := by
  unfold heapRead
  rw [List.getD_eq_getElem?_getD, List.getD_eq_getElem?_getD,
    List.getElem?_append_left hj]

/-- Reading the freshly allocated cell. -/
theorem heapRead_append_self (h : List (List Op)) (v : List Op) :
    heapRead (h ++ [v]) h.length = v := by
  unfold heapRead
  rw [List.getD_eq_getElem?_getD, List.getElem?_concat_length]
  rfl

/-- The allocate-then-repair step every pass ends in: the heap grows by one
cell, the old cells are untouched, and the fresh cell holds the repaired
scan result. -/
theorem allocWrite_props (h : List (List Op)) (v : List Op) :
    h.length ≤ (heapWrite (h ++ [v]) h.length
      (fixJumpTargets (heapRead (h ++ [v]) h.length))).length ∧
    (∀ j, j < h.length → heapRead (heapWrite (h ++ [v]) h.length
      (fixJumpTargets (heapRead (h ++ [v]) h.length))) j = heapRead h j) ∧
    heapRead (heapWrite (h ++ [v]) h.length
      (fixJumpTargets (heapRead (h ++ [v]) h.length))) h.length =
      fixJumpTargets v := by
  refine ⟨?_, ?_, ?_⟩
  · unfold heapWrite
    rw [List.length_set, List.length_append, List.length_singleton]
    omega
  · intro j hj
    rw [heapRead_write_ne (by omega)]
    exact heapRead_append_lt hj
  · rw [heapRead_write_self (by rw [List.length_append, List.length_singleton]; omega),
      heapRead_append_self]

/-- `clearLoopsH` grows the heap, preserves old cells, and its result slice
reads as the pure `clearLoops`. -/
theorem clearLoopsH_props (h : List (List Op)) (r : Nat) :
    h.length ≤ (clearLoopsH h r).2.length ∧
    (∀ j, j < h.length → heapRead (clearLoopsH h r).2 j = heapRead h j) ∧
    heapRead (clearLoopsH h r).2 (clearLoopsH h r).1 = clearLoops (heapRead h r) := by
  have hcl : clearLoopsH h r =
      if (heapRead h r).length < 3 then (r, h)
      else (h.length,
        heapWrite (h ++ [clearScanF (heapRead h r).length (heapRead h r) 0]) h.length
          (fixJumpTargets
            (heapRead (h ++ [clearScanF (heapRead h r).length (heapRead h r) 0])
              h.length))) := rfl
  rw [hcl]
  unfold clearLoops
  by_cases hc : (heapRead h r).length < 3
  · rw [if_pos hc, if_pos hc]
    exact ⟨le_refl _, fun j hj => rfl, rfl⟩
  · rw [if_neg hc, if_neg hc]
    obtain ⟨ha, hb, hc2⟩ :=
      allocWrite_props h (clearScanF (heapRead h r).length (heapRead h r) 0)
    exact ⟨ha, hb, hc2⟩

/-- `removeEmptyLoopsH` grows the heap, preserves old cells, and its result
slice reads as the pure `removeEmptyLoops`. -/
theorem removeEmptyLoopsH_props (h : List (List Op)) (r : Nat) :
    h.length ≤ (removeEmptyLoopsH h r).2.length ∧
    (∀ j, j < h.length → heapRead (removeEmptyLoopsH h r).2 j = heapRead h j) ∧
    heapRead (removeEmptyLoopsH h r).2 (removeEmptyLoopsH h r).1 =
      removeEmptyLoops (heapRead h r) := by
  have hcl : removeEmptyLoopsH h r =
      if (heapRead h r).length < 2 then (r, h)
      else (h.length,
        heapWrite (h ++ [emptyScanF (heapRead h r).length (heapRead h r) 0]) h.length
          (fixJumpTargets
            (heapRead (h ++ [emptyScanF (heapRead h r).length (heapRead h r) 0])
              h.length))) := rfl
  rw [hcl]
  unfold removeEmptyLoops
  by_cases hc : (heapRead h r).length < 2
  · rw [if_pos hc, if_pos hc]
    exact ⟨le_refl _, fun j hj => rfl, rfl⟩
  · rw [if_neg hc, if_neg hc]
    obtain ⟨ha, hb, hc2⟩ :=
      allocWrite_props h (emptyScanF (heapRead h r).length (heapRead h r) 0)
    exact ⟨ha, hb, hc2⟩

/-- `mergeAdjacentH` grows the heap, preserves old cells, and its result
slice reads as the pure `mergeAdjacent`. -/
theorem mergeAdjacentH_props (h : List (List Op)) (r : Nat) :
    h.length ≤ (mergeAdjacentH h r).2.length ∧
    (∀ j, j < h.length → heapRead (mergeAdjacentH h r).2 j = heapRead h j) ∧
    heapRead (mergeAdjacentH h r).2 (mergeAdjacentH h r).1 =
      mergeAdjacent (heapRead h r) := by
  have hcl : mergeAdjacentH h r =
      if (heapRead h r).length < 2 then (r, h)
      else (h.length,
        heapWrite (h ++ [mergeAux [] (heapRead h r)]) h.length
          (fixJumpTargets (heapRead (h ++ [mergeAux [] (heapRead h r)]) h.length))) := rfl
  rw [hcl]
  unfold mergeAdjacent
  by_cases hc : (heapRead h r).length < 2
  · rw [if_pos hc, if_pos hc]
    exact ⟨le_refl _, fun j hj => rfl, rfl⟩
  · rw [if_neg hc, if_neg hc]
    obtain ⟨ha, hb, hc2⟩ := allocWrite_props h (mergeAux [] (heapRead h r))
    exact ⟨ha, hb, hc2⟩

/-- `removeNoOpsH` grows the heap, preserves old cells, and its result slice
reads as the pure `removeNoOps`. -/
theorem removeNoOpsH_props (h : List (List Op)) (r : Nat) :
    h.length ≤ (removeNoOpsH h r).2.length ∧
    (∀ j, j < h.length → heapRead (removeNoOpsH h r).2 j = heapRead h j) ∧
    heapRead (removeNoOpsH h r).2 (removeNoOpsH h r).1 =
      removeNoOps (heapRead h r) := by
  have hcl : removeNoOpsH h r =
      (h.length,
        heapWrite (h ++ [noOpScan (heapRead h r)]) h.length
          (fixJumpTargets (heapRead (h ++ [noOpScan (heapRead h r)]) h.length))) := rfl
  rw [hcl]
  obtain ⟨ha, hb, hc2⟩ := allocWrite_props h (noOpScan (heapRead h r))
  exact ⟨ha, hb, hc2⟩

/-- One heap-level pass round grows the heap, preserves old cells, and its
result slice reads as the pure `optPasses`. -/
theorem optPassesH_props (h : List (List Op)) (r : Nat) :
    h.length ≤ (optPassesH h r).2.length ∧
    (∀ j, j < h.length → heapRead (optPassesH h r).2 j = heapRead h j) ∧
    heapRead (optPassesH h r).2 (optPassesH h r).1 = optPasses (heapRead h r) := by
  have hop : optPassesH h r =
      removeNoOpsH
        (mergeAdjacentH
          (removeEmptyLoopsH (clearLoopsH h r).2 (clearLoopsH h r).1).2
          (removeEmptyLoopsH (clearLoopsH h r).2 (clearLoopsH h r).1).1).2
        (mergeAdjacentH
          (removeEmptyLoopsH (clearLoopsH h r).2 (clearLoopsH h r).1).2
          (removeEmptyLoopsH (clearLoopsH h r).2 (clearLoopsH h r).1).1).1 := rfl
  obtain ⟨l1, f1, r1⟩ := clearLoopsH_props h r
  obtain ⟨l2, f2, r2⟩ :=
    removeEmptyLoopsH_props (clearLoopsH h r).2 (clearLoopsH h r).1
  obtain ⟨l3, f3, r3⟩ :=
    mergeAdjacentH_props
      (removeEmptyLoopsH (clearLoopsH h r).2 (clearLoopsH h r).1).2
      (removeEmptyLoopsH (clearLoopsH h r).2 (clearLoopsH h r).1).1
  obtain ⟨l4, f4, r4⟩ :=
    removeNoOpsH_props
      (mergeAdjacentH
        (removeEmptyLoopsH (clearLoopsH h r).2 (clearLoopsH h r).1).2
        (removeEmptyLoopsH (clearLoopsH h r).2 (clearLoopsH h r).1).1).2
      (mergeAdjacentH
        (removeEmptyLoopsH (clearLoopsH h r).2 (clearLoopsH h r).1).2
        (removeEmptyLoopsH (clearLoopsH h r).2 (clearLoopsH h r).1).1).1
  rw [hop]
  refine ⟨by omega, ?_, ?_⟩
  · intro j hj
    rw [f4 j (by omega), f3 j (by omega), f2 j (by omega), f1 j hj]
  · rw [r4, r3, r2, r1]
    rfl

set_option maxHeartbeats 1000000 in
/-- The heap-level fixed-point loop grows the heap, preserves old cells, and
its result slice reads as the pure `optimiseLoop` with the same fuel. -/
theorem optimiseLoopH_props : ∀ (fuel : Nat) (h : List (List Op)) (r : Nat),
    h.length ≤ (optimiseLoopH fuel h r).2.length ∧
    (∀ j, j < h.length → heapRead (optimiseLoopH fuel h r).2 j = heapRead h j) ∧
    heapRead (optimiseLoopH fuel h r).2 (optimiseLoopH fuel h r).1 =
      optimiseLoop fuel (heapRead h r) := by
  intro fuel
  induction fuel with
  | zero =>
    intro h r
    rw [optimiseLoopH, optimiseLoop]
    exact ⟨le_refl _, fun j hj => rfl, rfl⟩
  | succ fuel ih =>
    intro h r
    have hop : optimiseLoopH (fuel + 1) h r =
        if (heapRead (optPassesH h r).2 (optPassesH h r).1).length =
            (heapRead h r).length
        then ((optPassesH h r).1, (optPassesH h r).2)
        else optimiseLoopH fuel (optPassesH h r).2 (optPassesH h r).1 := rfl
    obtain ⟨hl, hf, hr⟩ := optPassesH_props h r
    rw [hop, hr, optimiseLoop]
    by_cases hc : (optPasses (heapRead h r)).length = (heapRead h r).length
    · rw [if_pos hc, if_pos hc]
      exact ⟨hl, hf, hr⟩
    · rw [if_neg hc, if_neg hc]
      obtain ⟨hl2, hf2, hr2⟩ := ih (optPassesH h r).2 (optPassesH h r).1
      refine ⟨le_trans hl hl2, ?_, ?_⟩
      · intro j hj
        rw [hf2 j (by omega), hf j hj]
      · rw [hr2, hr]

/-- Witness for C9: the invariant-satisfying stream `Jz 2, Jnz 0` on a
one-cell tape. -/
theorem c9_run_never_crashes_witness :
    jumpPairInv [(⟨.OpJz, 2, none⟩ : Op), ⟨.OpJnz, 0, none⟩] = true ∧
    1 ≤ (1 : Nat) ∧
    Run ⟨1, .EOFZero⟩ [(⟨.OpJz, 2, none⟩ : Op), ⟨.OpJnz, 0, none⟩] 5
      (initState ⟨1, .EOFZero⟩ []) ≠ RunResult.crashed :=
  ⟨by decide, by decide,
    c9_run_never_crashes ⟨1, .EOFZero⟩ [(⟨.OpJz, 2, none⟩ : Op), ⟨.OpJnz, 0, none⟩]
      [] 5 (by decide) (by decide)⟩

/-- C10: in the aliasing-aware heap model of the optimiser's slice usage,
`Optimise` never mutates a pre-existing array — in particular the caller's
argument slice reads back unchanged in length and in every element — while
its result slice reads as the pure optimiser output, because every pass
allocates a fresh array and the jump-target repair mutates only that fresh
array. -/
theorem c10_optimise_frame (h : List (List Op)) (r j : Nat) (hj : j < h.length) :
    heapRead (OptimiseH h r).2 j = heapRead h j ∧
    heapRead (OptimiseH h r).2 (OptimiseH h r).1 = Optimise (heapRead h r) := by
  unfold OptimiseH Optimise
  by_cases hc : (heapRead h r).length = 0
  · rw [if_pos hc, if_pos hc]
    exact ⟨rfl, rfl⟩
  · rw [if_neg hc, if_neg hc]
    obtain ⟨_, hf, hr⟩ := optimiseLoopH_props ((heapRead h r).length + 1) h r
    exact ⟨hf j hj, hr⟩

/-- Witness for C10: a one-slice heap holding `Add 257`; the optimised
result slice reads `Add 1` while the original slice still reads `Add 257`. -/
theorem c10_optimise_frame_witness :
    0 < ([[(⟨.OpAdd, 257, none⟩ : Op)]] : List (List Op)).length ∧
    (heapRead (OptimiseH [[(⟨.OpAdd, 257, none⟩ : Op)]] 0).2 0 =
        heapRead [[(⟨.OpAdd, 257, none⟩ : Op)]] 0 ∧
      heapRead (OptimiseH [[(⟨.OpAdd, 257, none⟩ : Op)]] 0).2
          (OptimiseH [[(⟨.OpAdd, 257, none⟩ : Op)]] 0).1 =
        Optimise (heapRead [[(⟨.OpAdd, 257, none⟩ : Op)]] 0)) :=
  ⟨by decide, c10_optimise_frame [[(⟨.OpAdd, 257, none⟩ : Op)]] 0 0 (by decide)⟩

end BF
